import Mathlib

/-!
# The session control of the database shell (`src/mongo/shell/dbshell.cpp`)

A shallow embedding of the balance scanner (`isOpSymbol`, `isUseCmd`,
`isBalanced`) and of the stateful functions around it (`shellHistoryAdd`,
`killOps`, `quitNicely`, `shellReadline`, `finishCode` and the tail of the
dispatch loop), with the properties that the specification states of them.

Modelling conventions.
* A `std::string` is a `List Char`; the cursor `i` of the scanning loop is
  represented by the suffix `code[i..]` that is still to be read, so `code[i]`
  is the head of the suffix and `code[i+1]` the head of its tail.
* The two depth counters are C `int`s; they are modelled as unbounded `Int`
  (an overflow would need more than `2^31 - 1` unclosed openers).
* `std::isspace` is taken in the "C" locale.
* `std::string::npos` is `none`.
-/

namespace DbShell

/-! ## Characters -/

/-- The double quote character. -/
def dquote : Char := '\x22'

/-- The single quote character. -/
def squote : Char := '\x27'

/-- The backslash character. -/
def backslash : Char := '\x5c'

/-- The opening brace. -/
def lbrace : Char := '\x7b'

/-- The closing brace. -/
def rbrace : Char := '\x7d'

/-- The opening parenthesis. -/
def lparen : Char := '\x28'

/-- The closing parenthesis. -/
def rparen : Char := '\x29'

/-- The function `std::isspace` in the "C" locale: space, `\t`, `\n`, `\v`, `\f`, `\r`. -/
def isspace (c : Char) : Bool :=
  c == ' ' || c == '\t' || c == '\n' || c == '\x0b' || c == '\x0c' || c == '\r'

/-- The constant `static string OpSymbols = "~!%^&*-+=|:,<>/?."`. -/
def OpSymbols : List Char := "~!%^&*-+=|:,<>/?.".toList

/-- The function `isOpSymbol`: a linear search through `OpSymbols`. -/
def isOpSymbol (c : Char) : Bool :=
  OpSymbols.any (fun o => o == c)

/-! ## `isUseCmd` -/

/-- The call `s.find(c)` for a one-character needle: the index of the first
occurrence, `none` standing for `npos`. -/
def find : List Char → Char → Option Nat
  | [], _ => none
  | x :: xs, c => if x = c then some 0 else (find xs c).map (fun k => k + 1)

/-- The function `isUseCmd`: `cmd` is `code` cut before its first space when
`code.find(" ") > 0` (which `npos` satisfies, `substr(0, npos)` then being the
whole string), and the result is `cmd == "use"`. -/
def isUseCmd (code : List Char) : Bool :=
  let cmd :=
    match find code ' ' with
    | none => code
    | some 0 => code
    | some (k + 1) => code.take (k + 1)
  decide (cmd = "use".toList)

/-! ## `isBalanced` -/

/-- The local variables of `isBalanced` at the head of a loop iteration;
`rest` is `code[i..]`. -/
structure ScanState where
  rest : List Char
  brackets : Int
  parens : Int
  danglingOp : Bool
deriving DecidableEq, Repr

/-- What one iteration of the `for` loop does: leave the function with a
result, or reach the loop head again (after the `i++` of the `for`). -/
inductive Outcome where
  | ret (r : Bool)
  | next (s : ScanState)
deriving DecidableEq, Repr

/-- The statements of the loop body that follow the `switch`, reached by a
`break` out of it with the cursor at `r`:
`if (i >= code.size()) { danglingOp = false; break; }` leaves the loop, and the
function returns `brackets == 0 && parens == 0 && !danglingOp`; otherwise the
dangling-operator flag is updated from `code[i]` and the `for` advances. -/
def afterSwitch (r : List Char) (b p : Int) (d : Bool) : Outcome :=
  match r with
  | [] => .ret (decide (b = 0) && decide (p = 0) && !false)
  | c :: r' =>
    .next ⟨r', b, p, if isOpSymbol c then true else if !isspace c then false else d⟩

/-- One iteration of the `for` loop of `isBalanced` (the loop test included:
on an exhausted text the function returns its final expression). -/
def loopBody (s : ScanState) : Outcome :=
  match s.rest with
  | [] => .ret (decide (s.brackets = 0) && decide (s.parens = 0) && !s.danglingOp)
  | c :: r =>
    if c = '/' then
      if r.head? = some '/' then
        -- `while (i < code.size() && code[i] != '\n') i++;` then `continue`
        .next ⟨((c :: r).dropWhile (fun x => x != '\n')).tail, s.brackets, s.parens, s.danglingOp⟩
      else
        .next ⟨r, s.brackets, s.parens, s.danglingOp⟩
    else if c = lbrace then
      afterSwitch (c :: r) (s.brackets + 1) s.parens s.danglingOp
    else if c = rbrace then
      if s.brackets ≤ 0 then .ret true
      else afterSwitch (c :: r) (s.brackets - 1) s.parens s.danglingOp
    else if c = lparen then
      afterSwitch (c :: r) s.brackets (s.parens + 1) s.danglingOp
    else if c = rparen then
      if s.parens ≤ 0 then .ret true
      else afterSwitch (c :: r) s.brackets (s.parens - 1) s.danglingOp
    else if c = dquote then
      afterSwitch (r.dropWhile (fun x => x != dquote)) s.brackets s.parens s.danglingOp
    else if c = squote then
      afterSwitch (r.dropWhile (fun x => x != squote)) s.brackets s.parens s.danglingOp
    else if c = backslash then
      if r.head? = some '/' then afterSwitch r s.brackets s.parens s.danglingOp
      else afterSwitch (c :: r) s.brackets s.parens s.danglingOp
    else if c = '+' ∨ c = '-' then
      if r.head? = some c then
        -- `i++; continue;`
        .next ⟨r.tail, s.brackets, s.parens, s.danglingOp⟩
      else afterSwitch (c :: r) s.brackets s.parens s.danglingOp
    else
      afterSwitch (c :: r) s.brackets s.parens s.danglingOp

/-- The `for` loop of `isBalanced`, run for at most `fuel` iterations; `none`
when the fuel does not suffice. -/
def scan : Nat → ScanState → Option Bool
  | 0, _ => none
  | fuel + 1, s =>
    match loopBody s with
    | .ret r => some r
    | .next s' => scan fuel s'

/-- The state in which the loop starts. -/
def initState (code : List Char) : ScanState := ⟨code, 0, 0, false⟩

/-- The function `isBalanced`. Every iteration consumes at least one
character, so `code.size() + 1` iterations always suffice (`isBalanced_total`). -/
def isBalanced (code : List Char) : Option Bool :=
  if isUseCmd code then some true
  else scan (code.length + 1) (initState code)

/-- The state at the head of the loop after `n` further iterations, `none` if
the function has returned before. -/
def stateAfter : Nat → ScanState → Option ScanState
  | 0, s => some s
  | n + 1, s =>
    match loopBody s with
    | .ret _ => none
    | .next s' => stateAfter n s'

/-- The update of the dangling-operator flag at the end of the loop body:
`if (isOpSymbol(code[i])) danglingOp = true; else if (!isspace(code[i])) danglingOp = false;`. -/
def updDangling (c : Char) (d : Bool) : Bool :=
  if isOpSymbol c then true else if !isspace c then false else d

/-- The characters that have a `case` of their own in the `switch`. -/
def switchChars : List Char :=
  ['/', lbrace, rbrace, lparen, rparen, dquote, squote, backslash, '+', '-']

/-- The loop run from a state with the fuel `isBalanced` gives it for the text
that is left. -/
def run (s : ScanState) : Option Bool := scan (s.rest.length + 1) s

/-- The dangling-operator flag after the characters of `t` have each passed
through the update at the end of the loop body, starting from `d`. -/
def dangleAfter (t : List Char) (d : Bool) : Bool :=
  t.foldl (fun d c => updDangling c d) d

/-! ## Notions used in the statements -/

/-- A use directive: the text `use`, or a text that starts with `use` and a space. -/
def isUseDirective (code : List Char) : Prop :=
  code = "use".toList ∨ "use ".toList <+: code

instance : DecidablePred isUseDirective := fun code => by
  unfold isUseDirective; infer_instance

/-- The last character of a text that is not whitespace, if there is one. -/
def lastNonSpace (code : List Char) : Option Char :=
  (code.filter (fun c => !isspace c)).getLast?

/-- In no prefix of the text do the closing braces outnumber the opening ones,
nor the closing parentheses the opening ones. -/
def noExcessCloser (code : List Char) : Prop :=
  ∀ pre ∈ code.inits,
    pre.count rbrace ≤ pre.count lbrace ∧ pre.count rparen ≤ pre.count lparen

instance : DecidablePred noExcessCloser := fun code => by
  unfold noExcessCloser; infer_instance

/-- The alphabet of bracket and operator text: letters, digits, whitespace,
`;`, braces, parentheses and the operator symbols other than `/`, `+`, `-`. -/
def bracketOpChar (c : Char) : Bool :=
  c.isAlphanum || isspace c || c == ';' || c == lbrace || c == rbrace || c == lparen
    || c == rparen || (isOpSymbol c && c != '/' && c != '+' && c != '-')

/-- The characters at which the scanner looks ahead or skips text. -/
def lexChars : List Char := ['/', dquote, squote, backslash, '+', '-']

/-- The characters that open a literal, a comment or an escape. -/
def quoteSlashChars : List Char := ['/', dquote, squote, backslash]

/-- The alphabet of the text before a string literal: letters, digits,
whitespace, braces, parentheses and the operator symbols other than `/`. -/
def literalPrefixChar (c : Char) : Bool :=
  c.isAlphanum || isspace c || c == lbrace || c == rbrace || c == lparen || c == rparen
    || (isOpSymbol c && c != '/')

/-- Whether every double quote of a text is immediately preceded by a
backslash; `prev` is the character before the text, if any. -/
def quotesEscapedFrom (prev : Option Char) : List Char → Bool
  | [] => true
  | c :: r => (c != dquote || prev == some backslash) && quotesEscapedFrom (some c) r

/-- The text contains only escaped double quotes. -/
def onlyEscapedQuotes (body : List Char) : Bool := quotesEscapedFrom none body

/-- The alphabet of operand and operator text: letters, digits, whitespace and
the operator symbols other than `/`, `+`, `-`. -/
def operandOpChar (c : Char) : Bool :=
  c.isAlphanum || isspace c || (isOpSymbol c && c != '/' && c != '+' && c != '-')

/-- Letters, digits, whitespace and the opening parenthesis. -/
def openParenTextChar (c : Char) : Bool := c.isAlphanum || isspace c || c == lparen

/-- Letters, digits, whitespace and the opening brace. -/
def openBraceTextChar (c : Char) : Bool := c.isAlphanum || isspace c || c == lbrace

/-- The whitespace-trimmed form of a text. -/
def trimSpace (l : List Char) : List Char :=
  ((l.dropWhile isspace).reverse.dropWhile isspace).reverse

/-- The modes of the reference reading of a text: in code, in a line comment,
in a double-quoted or single-quoted literal, or right after the backslash of an
escaped slash. -/
inductive LexMode where
  | code
  | comment
  | dstring
  | sstring
  | escaped
deriving DecidableEq, Repr

/-- Reference reading of a text, following rules 1, 3 and 4 of the
specification of the scanner: the characters of the text that lie outside line
comments and outside the bodies of string literals. A line comment runs from
`//` through the newline that ends it; a string literal runs from a quote to
the next quote of the same kind, and its two quotes are kept; a backslash and
the slash after it are one unit, so that slash opens no comment. The result is
`none` when a string literal is not terminated. -/
def significant : LexMode → List Char → Option (List Char)
  | .code, [] => some []
  | .code, c :: r =>
    if c = '/' ∧ r.head? = some '/' then significant .comment r
    else if c = dquote then (significant .dstring r).map (fun t => c :: t)
    else if c = squote then (significant .sstring r).map (fun t => c :: t)
    else if c = backslash ∧ r.head? = some '/' then
      (significant .escaped r).map (fun t => c :: t)
    else (significant .code r).map (fun t => c :: t)
  | .comment, [] => some []
  | .comment, c :: r => if c = '\n' then significant .code r else significant .comment r
  | .dstring, [] => none
  | .dstring, c :: r =>
    if c = dquote then (significant .code r).map (fun t => c :: t)
    else significant .dstring r
  | .sstring, [] => none
  | .sstring, c :: r =>
    if c = squote then (significant .code r).map (fun t => c :: t)
    else significant .sstring r
  | .escaped, [] => some []
  | .escaped, c :: r => (significant .code r).map (fun t => c :: t)

/-- Braces and parentheses are balanced in a text: no prefix has a closer in
excess, and in the whole text the openers and the closers of each kind are
equally many. -/
def balancedText (t : List Char) : Prop :=
  noExcessCloser t ∧ t.count lbrace = t.count rbrace ∧ t.count lparen = t.count rparen

instance : DecidablePred balancedText := fun t => by
  unfold balancedText; infer_instance

/-- The text `t` closes exactly the `b` braces and `p` parentheses that are
open before it, without ever closing more than are open. -/
def Closes (t : List Char) (b p : Int) : Prop :=
  (∀ pre ∈ t.inits, (pre.count rbrace : Int) ≤ b + pre.count lbrace ∧
      (pre.count rparen : Int) ≤ p + pre.count lparen) ∧
    b + t.count lbrace = t.count rbrace ∧ p + t.count lparen = t.count rparen

/-! ## The session: history, kill coordinator, signals, reads

Modelling conventions for the stateful part.
* The globals `gotInterrupted`, `inMultiLine`, `atPrompt` and
  `mongo::dbexitCalled` are the fields of `Flags`, passed explicitly.
* A C string is a `List Char`; `line[0] == '\0'` is `line = []` and
  `strstr(line, s) == NULL` is `¬ s <:+: line`.
* The line source is a list of `ReadEvent`s, one for each call of `linenoise`;
  when the list is exhausted the source is at end of input. A `SIGINT` is
  taken to arrive only while a read blocks.
* The build is the one in which `CTRLC_HANDLE` is not defined.
-/

/-- The process-wide flags. -/
structure Flags where
  gotInterrupted : Bool
  inMultiLine : Bool
  atPrompt : Bool
  dbexitCalled : Bool
deriving DecidableEq, Repr

/-- The history as `shellHistoryAdd` sees it: its static `lastLine`, and the
lines handed to `linenoiseHistoryAdd`, in order. -/
structure History where
  lastLine : List Char
  log : List (List Char)
deriving DecidableEq, Repr

/-- The history at the start: `lastLine` is the empty string and nothing has
been recorded. -/
def emptyHistory : History := ⟨[], []⟩

/-- The text `.auth` that keeps a line out of the history. -/
def authMarker : List Char := ".auth".toList

/-- The function `shellHistoryAdd`. -/
def shellHistoryAdd (h : History) (line : List Char) : History :=
  if line = [] then h
  else if h.lastLine = line then h
  else if authMarker <:+: line then { h with lastLine := line }
  else { lastLine := line, log := h.log ++ [line] }

/-- The history after a sequence of calls of `shellHistoryAdd`, from the empty
history. -/
def submitAll (calls : List (List Char)) : History :=
  calls.foldl shellHistoryAdd emptyHistory

/-- The line of the last non-empty submission of a sequence, if there is one. -/
def prevNonEmpty (calls : List (List Char)) : Option (List Char) :=
  (calls.filter (fun l => decide (l ≠ []))).getLast?

/-- An operation in progress on a server, as `killOps` reads it: the client
that runs it and its identifier. -/
structure Op where
  client : List Char
  opid : Nat
deriving DecidableEq, Repr

/-- What `killOps` does to the outside world. -/
inductive KillEffect where
  | sleep
  | connect (uri : List Char)
  | listOps (uri : List Char)
  | ask
  | kill (uri : List Char) (opid : Nat)
deriving DecidableEq, Repr

/-- The outside world of `killOps`: whether a registry key parses to a valid
connection string, whether connecting succeeds, the operations the server
lists (the requests are taken to succeed), and what the user answers when
asked. -/
structure KillEnv where
  valid : List Char → Bool
  connects : List Char → Bool
  inprog : List Char → List Op
  answer : Char

/-- The globals `killOps` reads: `_nokillop`, the registry `_allMyUris` in
iteration order, `autoKillOp`, and whether the statement under `ONCE` has
completed before. -/
structure KillConfig where
  nokillop : Bool
  allMyUris : List (List Char × List (List Char))
  autoKillOp : Bool
  onceDone : Bool

/-- The effects of a call of `killOps`, and the state of `ONCE` after it. -/
structure KillResult where
  effects : List KillEffect
  onceDone : Bool
deriving DecidableEq, Repr

/-- Modelled from the spec: the macro `ONCE` is not under src/; its statement
is taken to run only until it has completed once in the process (the spec's
"prompt the user once"). This is the loop `BSONForEach( op, inprog )` of
`killOps` for one endpoint; the third component tells that the function has
returned because the user declined. -/
def killMatching (env : KillEnv) (autoKillOp : Bool) (uri : List Char)
    (uris : List (List Char)) : List Op → Bool → List KillEffect × Bool × Bool
  | [], done => ([], done, false)
  | op :: ops, done =>
    if op.client ∈ uris then
      if !done && !autoKillOp then
        if env.answer ≠ 'y' ∧ env.answer ≠ 'Y' then ([.ask], done, true)
        else
          let r := killMatching env autoKillOp uri uris ops true
          (.ask :: .kill uri op.opid :: r.1, r.2.1, r.2.2)
      else
        let r := killMatching env autoKillOp uri uris ops true
        (.kill uri op.opid :: r.1, r.2.1, r.2.2)
    else killMatching env autoKillOp uri uris ops done

/-- The loop of `killOps` over the registry. -/
def killEndpoints (env : KillEnv) (autoKillOp : Bool) :
    List (List Char × List (List Char)) → Bool → List KillEffect × Bool
  | [], done => ([], done)
  | (uri, uris) :: rest, done =>
    if !env.valid uri then killEndpoints env autoKillOp rest done
    else if !env.connects uri then
      let r := killEndpoints env autoKillOp rest done
      (.connect uri :: r.1, r.2)
    else
      let m := killMatching env autoKillOp uri uris (env.inprog uri) done
      if m.2.2 then (.connect uri :: .listOps uri :: m.1, m.2.1)
      else
        let r := killEndpoints env autoKillOp rest m.2.1
        (.connect uri :: .listOps uri :: (m.1 ++ r.1), r.2)

/-- The function `killOps`, called with the flag `atPrompt` as it stands. -/
def killOps (env : KillEnv) (cfg : KillConfig) (atPrompt : Bool) : KillResult :=
  if cfg.nokillop || cfg.allMyUris.length == 0 then ⟨[], cfg.onceDone⟩
  else if atPrompt then ⟨[], cfg.onceDone⟩
  else
    let r := killEndpoints env cfg.autoKillOp cfg.allMyUris cfg.onceDone
    ⟨.sleep :: r.1, r.2⟩

/-- The signals for which `setupSignals` installs `quitNicely`. -/
inductive Signal where
  | SIGINT
  | SIGTERM
  | SIGPIPE
deriving DecidableEq, Repr

/-- What a call of `quitNicely` has done: the flags after it, whether the
`SIGPIPE` message was written, the result of `killOps()` if it was called,
whether `shellHistoryDone()` was called, and the status passed to `exit` if
the process was terminated. -/
structure QuitResult where
  flags : Flags
  pipeLogged : Bool
  killed : Option KillResult
  historySaved : Bool
  exitStatus : Option Int
deriving DecidableEq, Repr

/-- The function `quitNicely`. -/
def quitNicely (env : KillEnv) (cfg : KillConfig) (f : Flags) (sig : Signal) : QuitResult :=
  let f1 := { f with dbexitCalled := true }
  if sig = .SIGINT ∧ f1.inMultiLine = true then
    ⟨{ f1 with gotInterrupted := true }, false, none, false, none⟩
  else
    ⟨f1, decide (sig = .SIGPIPE), some (killOps env cfg f1.atPrompt), true, some 0⟩

/-- One blocking read: the line `linenoise` returns (`none` for a null
pointer), and whether a `SIGINT` is delivered while it blocks. -/
structure ReadEvent where
  line : Option (List Char)
  sigint : Bool
deriving DecidableEq, Repr

/-- The read at end of input: no line, no signal. -/
def endOfInput : ReadEvent := ⟨none, false⟩

/-- How a call of `shellReadline` ends: the process has been terminated by the
signal handler, or the call returns. -/
inductive ReadOutcome where
  | exited (q : QuitResult)
  | returned (f : Flags) (line : Option (List Char))
deriving DecidableEq, Repr

/-- The end of `shellReadline`, after `linenoise` has returned `line`:
`if ( ! ret ) gotInterrupted = true; ... atPrompt = false; return ret;`. -/
def readReturn (f : Flags) (line : Option (List Char)) : ReadOutcome :=
  let f2 := if line.isNone then { f with gotInterrupted := true } else f
  .returned { f2 with atPrompt := false } line

/-- The function `shellReadline`: `atPrompt` is set, `linenoise` blocks (a
`SIGINT` delivered meanwhile runs the installed handler `quitNicely`), then the
result is returned. -/
def shellReadline (env : KillEnv) (cfg : KillConfig) (f : Flags) (ev : ReadEvent) :
    ReadOutcome :=
  let f1 := { f with atPrompt := true }
  if ev.sigint then
    let q := quitNicely env cfg f1 .SIGINT
    match q.exitStatus with
    | some _ => .exited q
    | none => readReturn q.flags ev.line
  else readReturn f1 ev.line

/-- Modelled from the spec: `startsWith` is declared outside src/; the loop
`while ( startsWith( line, "... " ) ) line += 4;` strips every leading echo of
the continuation prompt. -/
def stripPrompt : List Char → List Char
  | '.' :: '.' :: '.' :: ' ' :: r => stripPrompt r
  | l => l

/-- How a call of `finishCode` ends: the process has been terminated during a
read, `isBalanced` gave no result (which does not happen, `isBalanced_total`),
or the call returns a text, with the flags as they then stand and the reads
that have not been consumed. -/
inductive FinishOutcome where
  | exited (q : QuitResult)
  | stuck
  | returned (text : List Char) (f : Flags) (rest : List ReadEvent)
deriving DecidableEq, Repr

/-- One iteration of the `while` loop of `finishCode`, the loop test included;
`ev` is the read this iteration makes if it comes to read, `here` the reads
not yet consumed before it, `rest` those after it, and `again` the loop from
its head. -/
def finishIter (env : KillEnv) (cfg : KillConfig) (f : Flags) (code : List Char)
    (ev : ReadEvent) (here rest : List ReadEvent)
    (again : Flags → List Char → FinishOutcome) : FinishOutcome :=
  match isBalanced code with
  | none => .stuck
  | some true => .returned code f here
  | some false =>
    let f1 := { f with inMultiLine := true }
    let code1 := code ++ ['\n']
    if "\n\n\n".toList <:+: code1 then .returned ";".toList f1 here
    else
      match shellReadline env cfg f1 ev with
      | .exited q => .exited q
      | .returned f2 line =>
        if f2.gotInterrupted then .returned [] f2 rest
        else
          match line with
          | none => .returned [] f2 rest
          | some l => again f2 (code1 ++ stripPrompt l)

/-- The function `finishCode`, reading from the list of reads. -/
def finishCode (env : KillEnv) (cfg : KillConfig) :
    List ReadEvent → Flags → List Char → FinishOutcome
  | [], f, code => finishIter env cfg f code endOfInput [] [] (fun _ _ => .stuck)
  | ev :: rest, f, code =>
    finishIter env cfg f code ev (ev :: rest) rest (fun f' code' => finishCode env cfg rest f' code')

/-- The alphabet of operand and operator text before a literal: letters,
digits, whitespace and the operator symbols other than `/`. -/
def opTextChar (c : Char) : Bool :=
  c.isAlphanum || isspace c || (isOpSymbol c && c != '/')

/-- The two tests that stand between the head of the loop of `finishCode` and
its read, on the text `code`: `! isBalanced( code )` holds, and the text with
the newline added has no `"\n\n\n"`; so the loop goes on to read a line. -/
def readsOn (code : List Char) : Bool :=
  decide (isBalanced code = some false) && !decide ("\n\n\n".toList <:+: code ++ ['\n'])

/-- The accumulation is under way after the continuation lines `lines` have
been read in turn onto `code`: the loop of `finishCode` has gone on to read
before each of them, and goes on to read once more after the last; each line
is added as in `code += "\n"; ... code += line;`. -/
def accumulating : List Char → List (List Char) → Bool
  | code, [] => readsOn code
  | code, l :: ls => readsOn code && accumulating (code ++ ['\n'] ++ stripPrompt l) ls

/-- The reads that return the lines `lines`, with no signal. -/
def lineReads (lines : List (List Char)) : List ReadEvent :=
  lines.map (fun l => ⟨some l, false⟩)

/-! ## The assertions of `BalancedTest` -/

example : isBalanced "x = 5".toList = some true := by decide
example : isBalanced "function()\x7b\x7d".toList = some true := by decide
example : isBalanced "function()\x7b\n\x7d".toList = some true := by decide
example : isBalanced "function()\x7b".toList = some false := by decide
example : isBalanced "x = \"\x7b\";".toList = some true := by decide
example : isBalanced "// \x7b".toList = some true := by decide
example : isBalanced "// \n \x7b".toList = some false := by decide
example : isBalanced "\"//\" \x7b".toList = some false := by decide
example : isBalanced "\x7bx:/x\\//\x7d".toList = some true := by decide
example : isBalanced "\x7b \\/// \x7d".toList = some false := by decide
example : isBalanced "x = 5 + y ".toList = some true := by decide
example : isBalanced "x = ".toList = some false := by decide
example : isBalanced "x = // hello".toList = some false := by decide
example : isBalanced "x = 5 +".toList = some false := by decide
example : isBalanced " x ++".toList = some true := by decide
example : isBalanced "-- x".toList = some true := by decide
example : isBalanced "a.".toList = some false := by decide
example : isBalanced "a. ".toList = some false := by decide
example : isBalanced "a.b".toList = some true := by decide

/-! ## One iteration, case by case -/

theorem afterSwitch_cons (c : Char) (r : List Char) (b p : Int) (d : Bool) :
    afterSwitch (c :: r) b p d = .next ⟨r, b, p, updDangling c d⟩ := rfl

theorem loopBody_nil (b p : Int) (d : Bool) :
    loopBody ⟨[], b, p, d⟩ = .ret (decide (b = 0) && decide (p = 0) && !d) := rfl

theorem loopBody_plain {c : Char} (hc : c ∉ switchChars) (r : List Char) (b p : Int) (d : Bool) :
    loopBody ⟨c :: r, b, p, d⟩ = .next ⟨r, b, p, updDangling c d⟩ := by
  simp only [switchChars, List.mem_cons, List.mem_singleton, not_or, List.not_mem_nil,
    not_false_eq_true, and_true] at hc
  obtain ⟨h1, h2, h3, h4, h5, h6, h7, h8, h9, h10⟩ := hc
  simp only [loopBody, if_neg h1, if_neg h2, if_neg h3, if_neg h4, if_neg h5, if_neg h6,
    if_neg h7, if_neg h8, h9, h10, or_self, if_false, afterSwitch, updDangling]

theorem loopBody_comment (r : List Char) (b p : Int) (d : Bool) :
    loopBody ⟨'/' :: '/' :: r, b, p, d⟩
      = .next ⟨(r.dropWhile (fun x => x != '\n')).tail, b, p, d⟩ := by
  simp [loopBody, List.dropWhile]

theorem loopBody_slash {r : List Char} (hr : r.head? ≠ some '/') (b p : Int) (d : Bool) :
    loopBody ⟨'/' :: r, b, p, d⟩ = .next ⟨r, b, p, d⟩ := by
  simp only [loopBody, if_true, if_neg hr]

theorem loopBody_lbrace (r : List Char) (b p : Int) (d : Bool) :
    loopBody ⟨lbrace :: r, b, p, d⟩ = .next ⟨r, b + 1, p, false⟩ := by
  simp [loopBody, afterSwitch, lbrace, isOpSymbol, OpSymbols, isspace]

theorem loopBody_rbrace (r : List Char) (b p : Int) (d : Bool) :
    loopBody ⟨rbrace :: r, b, p, d⟩
      = if b ≤ 0 then .ret true else .next ⟨r, b - 1, p, false⟩ := by
  simp [loopBody, afterSwitch, lbrace, rbrace, isOpSymbol, OpSymbols, isspace]

theorem loopBody_lparen (r : List Char) (b p : Int) (d : Bool) :
    loopBody ⟨lparen :: r, b, p, d⟩ = .next ⟨r, b, p + 1, false⟩ := by
  simp [loopBody, afterSwitch, lbrace, rbrace, lparen, isOpSymbol, OpSymbols, isspace]

theorem loopBody_rparen (r : List Char) (b p : Int) (d : Bool) :
    loopBody ⟨rparen :: r, b, p, d⟩
      = if p ≤ 0 then .ret true else .next ⟨r, b, p - 1, false⟩ := by
  simp [loopBody, afterSwitch, lbrace, rbrace, lparen, rparen, isOpSymbol, OpSymbols, isspace]

theorem loopBody_dquote (r : List Char) (b p : Int) (d : Bool) :
    loopBody ⟨dquote :: r, b, p, d⟩
      = afterSwitch (r.dropWhile (fun x => x != dquote)) b p d := by
  simp [loopBody, lbrace, rbrace, lparen, rparen, dquote]

theorem loopBody_squote (r : List Char) (b p : Int) (d : Bool) :
    loopBody ⟨squote :: r, b, p, d⟩
      = afterSwitch (r.dropWhile (fun x => x != squote)) b p d := by
  simp [loopBody, lbrace, rbrace, lparen, rparen, dquote, squote]

theorem loopBody_backslash_slash (r : List Char) (b p : Int) (d : Bool) :
    loopBody ⟨backslash :: '/' :: r, b, p, d⟩ = .next ⟨r, b, p, true⟩ := by
  simp [loopBody, afterSwitch, lbrace, rbrace, lparen, rparen, dquote, squote, backslash,
    isOpSymbol, OpSymbols]

theorem loopBody_backslash {r : List Char} (hr : r.head? ≠ some '/') (b p : Int) (d : Bool) :
    loopBody ⟨backslash :: r, b, p, d⟩ = .next ⟨r, b, p, false⟩ := by
  simp [loopBody, afterSwitch, lbrace, rbrace, lparen, rparen, dquote, squote, backslash,
    isOpSymbol, OpSymbols, isspace, hr]

theorem loopBody_plus_plus (r : List Char) (b p : Int) (d : Bool) :
    loopBody ⟨'+' :: '+' :: r, b, p, d⟩ = .next ⟨r, b, p, d⟩ := by
  simp [loopBody, lbrace, rbrace, lparen, rparen, dquote, squote, backslash]

theorem loopBody_minus_minus (r : List Char) (b p : Int) (d : Bool) :
    loopBody ⟨'-' :: '-' :: r, b, p, d⟩ = .next ⟨r, b, p, d⟩ := by
  simp [loopBody, lbrace, rbrace, lparen, rparen, dquote, squote, backslash]

theorem loopBody_plus {r : List Char} (hr : r.head? ≠ some '+') (b p : Int) (d : Bool) :
    loopBody ⟨'+' :: r, b, p, d⟩ = .next ⟨r, b, p, true⟩ := by
  simp [loopBody, afterSwitch, lbrace, rbrace, lparen, rparen, dquote, squote, backslash,
    isOpSymbol, OpSymbols, hr]

theorem loopBody_minus {r : List Char} (hr : r.head? ≠ some '-') (b p : Int) (d : Bool) :
    loopBody ⟨'-' :: r, b, p, d⟩ = .next ⟨r, b, p, true⟩ := by
  simp [loopBody, afterSwitch, lbrace, rbrace, lparen, rparen, dquote, squote, backslash,
    isOpSymbol, OpSymbols, hr]

/-! ## Fuel: the loop always terminates -/

theorem length_dropWhile_le (f : Char → Bool) (l : List Char) :
    (l.dropWhile f).length ≤ l.length := by
  induction l with
  | nil => simp
  | cons a l ih =>
    simp only [List.dropWhile]
    split
    · simp only [List.length_cons]; omega
    · simp

theorem afterSwitch_next_lt {r : List Char} {b p : Int} {d : Bool} {s' : ScanState}
    (h : afterSwitch r b p d = .next s') : s'.rest.length < r.length := by
  cases r with
  | nil => simp [afterSwitch] at h
  | cons c r' =>
    simp only [afterSwitch, Outcome.next.injEq] at h
    subst h
    simp

theorem head?_cases (r : List Char) (c : Char) :
    (∃ r', r = c :: r') ∨ r.head? ≠ some c := by
  cases r with
  | nil => right; simp
  | cons a r' =>
    by_cases h : a = c
    · left; exact ⟨r', by rw [h]⟩
    · right; simpa using h

/-- Every iteration that reaches the loop head again has consumed a character. -/
theorem loopBody_next_lt {s s' : ScanState} (h : loopBody s = .next s') :
    s'.rest.length < s.rest.length := by
  obtain ⟨rest, b, p, d⟩ := s
  cases rest with
  | nil => simp [loopBody] at h
  | cons c r =>
    have hq := length_dropWhile_le (fun x => x != dquote) r
    have hs := length_dropWhile_le (fun x => x != squote) r
    simp only [List.length_cons]
    by_cases hc : c ∈ switchChars
    · simp only [switchChars, List.mem_cons, List.mem_singleton, List.not_mem_nil, or_false] at hc
      rcases hc with rfl | rfl | rfl | rfl | rfl | rfl | rfl | rfl | rfl | rfl
      · rcases head?_cases r '/' with ⟨r', rfl⟩ | hr
        · rw [loopBody_comment] at h
          have hn := length_dropWhile_le (fun x => x != '\n') r'
          cases h
          simp only [List.length_tail, List.length_cons]; omega
        · rw [loopBody_slash hr] at h; cases h; simp
      · rw [loopBody_lbrace] at h; cases h; simp
      · rw [loopBody_rbrace] at h
        split at h
        · cases h
        · cases h; simp
      · rw [loopBody_lparen] at h; cases h; simp
      · rw [loopBody_rparen] at h
        split at h
        · cases h
        · cases h; simp
      · rw [loopBody_dquote] at h
        have := afterSwitch_next_lt h; omega
      · rw [loopBody_squote] at h
        have := afterSwitch_next_lt h; omega
      · rcases head?_cases r '/' with ⟨r', rfl⟩ | hr
        · rw [loopBody_backslash_slash] at h; cases h; simp only [List.length_cons]; omega
        · rw [loopBody_backslash hr] at h; cases h; simp
      · rcases head?_cases r '+' with ⟨r', rfl⟩ | hr
        · rw [loopBody_plus_plus] at h; cases h; simp only [List.length_cons]; omega
        · rw [loopBody_plus hr] at h; cases h; simp
      · rcases head?_cases r '-' with ⟨r', rfl⟩ | hr
        · rw [loopBody_minus_minus] at h; cases h; simp only [List.length_cons]; omega
        · rw [loopBody_minus hr] at h; cases h; simp
    · rw [loopBody_plain hc] at h; cases h; simp

theorem scan_fuel (n : Nat) : ∀ (s : ScanState), s.rest.length < n → scan n s = run s := by
  induction n using Nat.strong_induction_on with
  | _ n ih =>
    intro s hs
    cases n with
    | zero => omega
    | succ n =>
      unfold run
      simp only [scan]
      cases hb : loopBody s with
      | ret r => rfl
      | next s' =>
        have hlt := loopBody_next_lt hb
        simp only
        rw [ih n (by omega) s' (by omega), ih s.rest.length (by omega) s' hlt]

/-- The fuel-free unfolding of the loop. -/
theorem run_eq (s : ScanState) :
    run s = match loopBody s with
      | .ret r => some r
      | .next s' => run s' := by
  conv_lhs => unfold run
  simp only [scan]
  cases hb : loopBody s with
  | ret r => rfl
  | next s' => exact scan_fuel _ s' (loopBody_next_lt hb)

/-- The loop returns a result from every state. -/
theorem run_total : ∀ (n : Nat) (s : ScanState), s.rest.length ≤ n → ∃ r, run s = some r := by
  intro n
  induction n with
  | zero =>
    intro s hs
    rw [run_eq]
    obtain ⟨rest, b, p, d⟩ := s
    have : rest = [] := List.length_eq_zero.mp (by simpa using hs)
    subst this
    exact ⟨_, rfl⟩
  | succ n ih =>
    intro s hs
    rw [run_eq]
    cases hb : loopBody s with
    | ret r => exact ⟨r, rfl⟩
    | next s' =>
      have hlt := loopBody_next_lt hb
      exact ih s' (by omega)

theorem isBalanced_eq (code : List Char) :
    isBalanced code = if isUseCmd code then some true else run (initState code) := rfl

/-- The function `isBalanced` returns a result on every text. -/
theorem isBalanced_total (code : List Char) : ∃ r, isBalanced code = some r := by
  rw [isBalanced_eq]
  split
  · exact ⟨true, rfl⟩
  · exact run_total _ _ (le_refl _)

/-! ## The loop, case by case -/

theorem run_of_ret {s : ScanState} {r : Bool} (h : loopBody s = .ret r) : run s = some r := by
  rw [run_eq, h]

theorem run_of_next {s s' : ScanState} (h : loopBody s = .next s') : run s = run s' := by
  rw [run_eq, h]

theorem run_nil (b p : Int) (d : Bool) :
    run ⟨[], b, p, d⟩ = some (decide (b = 0) && decide (p = 0) && !d) :=
  run_of_ret (loopBody_nil b p d)

theorem run_plain {c : Char} (hc : c ∉ switchChars) (r : List Char) (b p : Int) (d : Bool) :
    run ⟨c :: r, b, p, d⟩ = run ⟨r, b, p, updDangling c d⟩ :=
  run_of_next (loopBody_plain hc r b p d)

theorem run_comment (r : List Char) (b p : Int) (d : Bool) :
    run ⟨'/' :: '/' :: r, b, p, d⟩ = run ⟨(r.dropWhile (fun x => x != '\n')).tail, b, p, d⟩ :=
  run_of_next (loopBody_comment r b p d)

theorem run_slash {r : List Char} (hr : r.head? ≠ some '/') (b p : Int) (d : Bool) :
    run ⟨'/' :: r, b, p, d⟩ = run ⟨r, b, p, d⟩ :=
  run_of_next (loopBody_slash hr b p d)

theorem run_lbrace (r : List Char) (b p : Int) (d : Bool) :
    run ⟨lbrace :: r, b, p, d⟩ = run ⟨r, b + 1, p, false⟩ :=
  run_of_next (loopBody_lbrace r b p d)

theorem run_rbrace_ret (r : List Char) {b : Int} (hb : b ≤ 0) (p : Int) (d : Bool) :
    run ⟨rbrace :: r, b, p, d⟩ = some true :=
  run_of_ret (by rw [loopBody_rbrace, if_pos hb])

theorem run_rbrace_pos (r : List Char) {b : Int} (hb : 0 < b) (p : Int) (d : Bool) :
    run ⟨rbrace :: r, b, p, d⟩ = run ⟨r, b - 1, p, false⟩ :=
  run_of_next (by rw [loopBody_rbrace, if_neg (not_le.mpr hb)])

theorem run_lparen (r : List Char) (b p : Int) (d : Bool) :
    run ⟨lparen :: r, b, p, d⟩ = run ⟨r, b, p + 1, false⟩ :=
  run_of_next (loopBody_lparen r b p d)

theorem run_rparen_ret (r : List Char) (b : Int) {p : Int} (hp : p ≤ 0) (d : Bool) :
    run ⟨rparen :: r, b, p, d⟩ = some true :=
  run_of_ret (by rw [loopBody_rparen, if_pos hp])

theorem run_rparen_pos (r : List Char) (b : Int) {p : Int} (hp : 0 < p) (d : Bool) :
    run ⟨rparen :: r, b, p, d⟩ = run ⟨r, b, p - 1, false⟩ :=
  run_of_next (by rw [loopBody_rparen, if_neg (not_le.mpr hp)])

theorem dropWhile_ne_of_not_mem {q : Char} {body : List Char} (h : q ∉ body) :
    body.dropWhile (fun x => x != q) = [] := by
  induction body with
  | nil => rfl
  | cons a l ih =>
    simp only [List.mem_cons, not_or] at h
    have ha : (a != q) = true := by simpa using fun e => h.1 e.symm
    simp only [List.dropWhile, ha]
    exact ih h.2

theorem dropWhile_ne_append {q : Char} {body : List Char} (h : q ∉ body) (s : List Char) :
    (body ++ q :: s).dropWhile (fun x => x != q) = q :: s := by
  induction body with
  | nil => simp [List.dropWhile]
  | cons a l ih =>
    simp only [List.mem_cons, not_or] at h
    have ha : (a != q) = true := by simpa using fun e => h.1 e.symm
    simp only [List.cons_append, List.dropWhile, ha]
    exact ih h.2

theorem updDangling_dquote (d : Bool) : updDangling dquote d = false := by
  simp [updDangling, dquote, isOpSymbol, OpSymbols, isspace]

theorem updDangling_squote (d : Bool) : updDangling squote d = false := by
  simp [updDangling, squote, isOpSymbol, OpSymbols, isspace]

/-- A terminated double-quoted literal is skipped as a whole. -/
theorem run_dquote_closed {body : List Char} (h : dquote ∉ body) (s : List Char)
    (b p : Int) (d : Bool) :
    run ⟨dquote :: (body ++ dquote :: s), b, p, d⟩ = run ⟨s, b, p, false⟩ :=
  run_of_next (by
    rw [loopBody_dquote, dropWhile_ne_append h, afterSwitch_cons, updDangling_dquote])

/-- An unterminated double-quoted literal ends the scan with the flag cleared. -/
theorem run_dquote_open {body : List Char} (h : dquote ∉ body) (b p : Int) (d : Bool) :
    run ⟨dquote :: body, b, p, d⟩ = some (decide (b = 0) && decide (p = 0)) :=
  run_of_ret (by
    rw [loopBody_dquote, dropWhile_ne_of_not_mem h]; simp [afterSwitch])

theorem run_squote_closed {body : List Char} (h : squote ∉ body) (s : List Char)
    (b p : Int) (d : Bool) :
    run ⟨squote :: (body ++ squote :: s), b, p, d⟩ = run ⟨s, b, p, false⟩ :=
  run_of_next (by
    rw [loopBody_squote, dropWhile_ne_append h, afterSwitch_cons, updDangling_squote])

theorem run_squote_open {body : List Char} (h : squote ∉ body) (b p : Int) (d : Bool) :
    run ⟨squote :: body, b, p, d⟩ = some (decide (b = 0) && decide (p = 0)) :=
  run_of_ret (by
    rw [loopBody_squote, dropWhile_ne_of_not_mem h]; simp [afterSwitch])

theorem run_backslash_slash (r : List Char) (b p : Int) (d : Bool) :
    run ⟨backslash :: '/' :: r, b, p, d⟩ = run ⟨r, b, p, true⟩ :=
  run_of_next (loopBody_backslash_slash r b p d)

theorem run_backslash {r : List Char} (hr : r.head? ≠ some '/') (b p : Int) (d : Bool) :
    run ⟨backslash :: r, b, p, d⟩ = run ⟨r, b, p, false⟩ :=
  run_of_next (loopBody_backslash hr b p d)

theorem run_plus_plus (r : List Char) (b p : Int) (d : Bool) :
    run ⟨'+' :: '+' :: r, b, p, d⟩ = run ⟨r, b, p, d⟩ :=
  run_of_next (loopBody_plus_plus r b p d)

theorem run_minus_minus (r : List Char) (b p : Int) (d : Bool) :
    run ⟨'-' :: '-' :: r, b, p, d⟩ = run ⟨r, b, p, d⟩ :=
  run_of_next (loopBody_minus_minus r b p d)

theorem run_plus {r : List Char} (hr : r.head? ≠ some '+') (b p : Int) (d : Bool) :
    run ⟨'+' :: r, b, p, d⟩ = run ⟨r, b, p, true⟩ :=
  run_of_next (loopBody_plus hr b p d)

theorem run_minus {r : List Char} (hr : r.head? ≠ some '-') (b p : Int) (d : Bool) :
    run ⟨'-' :: r, b, p, d⟩ = run ⟨r, b, p, true⟩ :=
  run_of_next (loopBody_minus hr b p d)

/-! ## The dangling-operator flag -/

theorem isOpSymbol_iff (c : Char) : isOpSymbol c = true ↔ c ∈ OpSymbols := by
  simp [isOpSymbol]

theorem isspace_of_isOpSymbol {c : Char} (h : isOpSymbol c = true) : isspace c = false := by
  rw [isOpSymbol_iff] at h
  simp only [OpSymbols, String.toList, List.mem_cons, List.mem_singleton, List.not_mem_nil,
    or_false] at h
  rcases h with rfl | rfl | rfl | rfl | rfl | rfl | rfl | rfl | rfl | rfl | rfl | rfl | rfl
    | rfl | rfl | rfl | rfl <;> decide

theorem lastNonSpace_cons (c : Char) (t : List Char) :
    lastNonSpace (c :: t) =
      match lastNonSpace t with
      | some x => some x
      | none => if isspace c then none else some c := by
  unfold lastNonSpace
  by_cases hc : isspace c = true
  · simp only [List.filter, hc, Bool.not_true, if_true]
    cases (List.filter (fun c => !isspace c) t).getLast? <;> rfl
  · simp only [Bool.not_eq_true] at hc
    simp only [List.filter, hc, Bool.not_false, List.getLast?_cons]
    cases (List.filter (fun c => !isspace c) t).getLast? <;> simp

theorem dangleAfter_nil (d : Bool) : dangleAfter [] d = d := rfl

theorem dangleAfter_cons (c : Char) (t : List Char) (d : Bool) :
    dangleAfter (c :: t) d = dangleAfter t (updDangling c d) := rfl

/-- The flag at the end is decided by the last non-whitespace character. -/
theorem dangleAfter_eq (t : List Char) : ∀ d : Bool,
    dangleAfter t d =
      match lastNonSpace t with
      | some x => isOpSymbol x
      | none => d := by
  induction t with
  | nil => intro d; rfl
  | cons c t ih =>
    intro d
    rw [dangleAfter_cons, ih, lastNonSpace_cons]
    cases lastNonSpace t with
    | some x => rfl
    | none =>
      simp only [updDangling]
      by_cases ho : isOpSymbol c = true
      · simp [ho, isspace_of_isOpSymbol ho]
      · by_cases hs : isspace c = true
        · simp [ho, hs]
        · simp [ho, hs]

/-! ## `isUseCmd` recognises exactly the use directives -/

theorem find_eq_none {l : List Char} {c : Char} : find l c = none ↔ c ∉ l := by
  induction l with
  | nil => simp [find]
  | cons x xs ih =>
    by_cases h : x = c
    · simp [find, h]
    · have h' : ¬ c = x := fun e => h e.symm
      simp [find, h, h', ih]

theorem find_eq_some {l : List Char} {c : Char} : ∀ {k : Nat}, find l c = some k →
    ∃ pre post, l = pre ++ c :: post ∧ c ∉ pre ∧ pre.length = k := by
  induction l with
  | nil => intro k h; simp [find] at h
  | cons x xs ih =>
    intro k h
    by_cases hx : x = c
    · simp only [find, hx, if_true, Option.some.injEq] at h
      exact ⟨[], xs, by simp [hx], by simp, by simpa using h⟩
    · simp only [find, hx, if_false, Option.map_eq_some'] at h
      obtain ⟨k', hk', rfl⟩ := h
      obtain ⟨pre, post, rfl, hpre, hlen⟩ := ih hk'
      refine ⟨x :: pre, post, by simp, ?_, by simp [hlen]⟩
      simp only [List.mem_cons, not_or]
      exact ⟨fun e => hx e.symm, hpre⟩

theorem first_occurrence_unique {c : Char} : ∀ {l₁ l₂ t₁ t₂ : List Char},
    c ∉ l₁ → c ∉ l₂ → l₁ ++ c :: t₁ = l₂ ++ c :: t₂ → l₁ = l₂ := by
  intro l₁
  induction l₁ with
  | nil =>
    intro l₂ t₁ t₂ _ h₂ h
    cases l₂ with
    | nil => rfl
    | cons y ys =>
      have := List.head_eq_of_cons_eq h
      exact absurd (by simp [this]) h₂
  | cons x xs ih =>
    intro l₂ t₁ t₂ h₁ h₂ h
    cases l₂ with
    | nil =>
      have := List.head_eq_of_cons_eq h
      exact absurd (by simp [this]) h₁
    | cons y ys =>
      simp only [List.cons_append, List.cons.injEq] at h
      simp only [List.mem_cons, not_or] at h₁ h₂
      rw [h.1, ih h₁.2 h₂.2 h.2]

theorem isUseCmd_iff (code : List Char) : isUseCmd code = true ↔ isUseDirective code := by
  unfold isUseCmd isUseDirective
  cases hf : find code ' ' with
  | none =>
    rw [find_eq_none] at hf
    simp only [decide_eq_true_eq]
    constructor
    · exact Or.inl
    · rintro (h | ⟨t, rfl⟩)
      · exact h
      · exact absurd (by simp) hf
  | some k =>
    obtain ⟨pre, post, rfl, hpre, hlen⟩ := find_eq_some hf
    cases k with
    | zero =>
      have : pre = [] := List.length_eq_zero.mp hlen
      subst this
      simp only [decide_eq_true_eq, List.nil_append]
      constructor
      · intro h
        have h' : ' ' :: post = 'u' :: ['s', 'e'] := h
        exact absurd (List.head_eq_of_cons_eq h') (by decide)
      · rintro (h | ⟨t, h⟩)
        · have h' : ' ' :: post = 'u' :: ['s', 'e'] := h
          exact absurd (List.head_eq_of_cons_eq h') (by decide)
        · have h' : 'u' :: (['s', 'e', ' '] ++ t) = ' ' :: post := h
          exact absurd (List.head_eq_of_cons_eq h') (by decide)
    | succ k =>
      have htake : List.take (k + 1) (pre ++ ' ' :: post) = pre := by
        rw [← hlen, List.take_left']
        rfl
      simp only [decide_eq_true_eq, htake]
      constructor
      · rintro rfl
        exact Or.inr ⟨post, rfl⟩
      · rintro (h | ⟨t, h⟩)
        · have : ' ' ∈ "use".toList := by rw [← h]; simp
          exact absurd this (by decide)
        · have h' : "use".toList ++ ' ' :: t = pre ++ ' ' :: post := h
          exact (first_occurrence_unique (by decide) hpre h').symm

/-! ## Text without look-ahead characters -/

theorem updDangling_lbrace (d : Bool) : updDangling lbrace d = false := by
  simp [updDangling, lbrace, isOpSymbol, OpSymbols, isspace]

theorem updDangling_rbrace (d : Bool) : updDangling rbrace d = false := by
  simp [updDangling, rbrace, isOpSymbol, OpSymbols, isspace]

theorem updDangling_lparen (d : Bool) : updDangling lparen d = false := by
  simp [updDangling, lparen, isOpSymbol, OpSymbols, isspace]

theorem updDangling_rparen (d : Bool) : updDangling rparen d = false := by
  simp [updDangling, rparen, isOpSymbol, OpSymbols, isspace]

theorem cons_mem_inits_cons {c : Char} {pre code : List Char} (h : pre ∈ code.inits) :
    c :: pre ∈ (c :: code).inits := by
  rw [List.mem_inits] at h ⊢
  exact (List.prefix_cons_inj c).mpr h

theorem not_mem_switchChars {c : Char} (hl : c ∉ lexChars) (h1 : c ≠ lbrace) (h2 : c ≠ rbrace)
    (h3 : c ≠ lparen) (h4 : c ≠ rparen) : c ∉ switchChars := by
  simp only [lexChars, switchChars, List.mem_cons, List.mem_singleton, List.not_mem_nil,
    or_false, not_or] at hl ⊢
  tauto

theorem result_congr {A A' B B' : Prop} [Decidable A] [Decidable A'] [Decidable B]
    [Decidable B'] (hA : A' ↔ A) (hB : B' ↔ B) (x : Bool) :
    some (decide A' && decide B' && x) = some (decide A && decide B && x) := by
  simp [hA, hB]

/-- On text without look-ahead characters, and as long as no closer is in
excess, the loop counts the brackets and tracks the last non-whitespace
character. -/
theorem run_simple : ∀ (code : List Char), (∀ c ∈ code, c ∉ lexChars) →
    ∀ (b p : Int) (d : Bool),
    (∀ pre ∈ code.inits, (pre.count rbrace : Int) ≤ b + pre.count lbrace ∧
        (pre.count rparen : Int) ≤ p + pre.count lparen) →
    run ⟨code, b, p, d⟩ = some (decide (b + code.count lbrace = code.count rbrace) &&
        decide (p + code.count lparen = code.count rparen) && !dangleAfter code d) := by
  intro code
  induction code with
  | nil =>
    intro _ b p d _
    rw [run_nil]
    simp [dangleAfter_nil]
  | cons c code ih =>
    intro hA b p d hP
    have hc : c ∉ lexChars := hA c (List.mem_cons_self _ _)
    have hA' : ∀ x ∈ code, x ∉ lexChars := fun x hx => hA x (List.mem_cons_of_mem _ hx)
    have hP' : ∀ pre ∈ code.inits, ((c :: pre).count rbrace : Int) ≤ b + (c :: pre).count lbrace ∧
        ((c :: pre).count rparen : Int) ≤ p + (c :: pre).count lparen :=
      fun pre hpre => hP (c :: pre) (cons_mem_inits_cons hpre)
    have h1 := hP [c] (cons_mem_inits_cons (by simp))
    rw [dangleAfter_cons]
    by_cases e1 : c = lbrace
    · subst e1
      have k1 : ∀ l : List Char, (lbrace :: l).count lbrace = l.count lbrace + 1 :=
        fun l => List.count_cons_self _ _
      have k2 : ∀ l : List Char, (lbrace :: l).count rbrace = l.count rbrace :=
        fun l => List.count_cons_of_ne (by decide) _
      have k3 : ∀ l : List Char, (lbrace :: l).count lparen = l.count lparen :=
        fun l => List.count_cons_of_ne (by decide) _
      have k4 : ∀ l : List Char, (lbrace :: l).count rparen = l.count rparen :=
        fun l => List.count_cons_of_ne (by decide) _
      simp only [k1, k2, k3, k4] at hP' h1 ⊢
      rw [run_lbrace, ih hA' (b + 1) p false, updDangling_lbrace]
      · exact result_congr (by push_cast; omega) Iff.rfl _
      · intro pre hpre
        have := hP' pre hpre
        push_cast at this
        omega
    by_cases e2 : c = rbrace
    · subst e2
      have k1 : ∀ l : List Char, (rbrace :: l).count lbrace = l.count lbrace :=
        fun l => List.count_cons_of_ne (by decide) _
      have k2 : ∀ l : List Char, (rbrace :: l).count rbrace = l.count rbrace + 1 :=
        fun l => List.count_cons_self _ _
      have k3 : ∀ l : List Char, (rbrace :: l).count lparen = l.count lparen :=
        fun l => List.count_cons_of_ne (by decide) _
      have k4 : ∀ l : List Char, (rbrace :: l).count rparen = l.count rparen :=
        fun l => List.count_cons_of_ne (by decide) _
      simp only [k1, k2, k3, k4] at hP' h1 ⊢
      have hb : 0 < b := by
        have := h1.1
        simp only [List.count_nil] at this
        push_cast at this
        omega
      rw [run_rbrace_pos _ hb, ih hA' (b - 1) p false, updDangling_rbrace]
      · exact result_congr (by push_cast; omega) Iff.rfl _
      · intro pre hpre
        have := hP' pre hpre
        push_cast at this
        omega
    by_cases e3 : c = lparen
    · subst e3
      have k1 : ∀ l : List Char, (lparen :: l).count lbrace = l.count lbrace :=
        fun l => List.count_cons_of_ne (by decide) _
      have k2 : ∀ l : List Char, (lparen :: l).count rbrace = l.count rbrace :=
        fun l => List.count_cons_of_ne (by decide) _
      have k3 : ∀ l : List Char, (lparen :: l).count lparen = l.count lparen + 1 :=
        fun l => List.count_cons_self _ _
      have k4 : ∀ l : List Char, (lparen :: l).count rparen = l.count rparen :=
        fun l => List.count_cons_of_ne (by decide) _
      simp only [k1, k2, k3, k4] at hP' h1 ⊢
      rw [run_lparen, ih hA' b (p + 1) false, updDangling_lparen]
      · exact result_congr Iff.rfl (by push_cast; omega) _
      · intro pre hpre
        have := hP' pre hpre
        push_cast at this
        omega
    by_cases e4 : c = rparen
    · subst e4
      have k1 : ∀ l : List Char, (rparen :: l).count lbrace = l.count lbrace :=
        fun l => List.count_cons_of_ne (by decide) _
      have k2 : ∀ l : List Char, (rparen :: l).count rbrace = l.count rbrace :=
        fun l => List.count_cons_of_ne (by decide) _
      have k3 : ∀ l : List Char, (rparen :: l).count lparen = l.count lparen :=
        fun l => List.count_cons_of_ne (by decide) _
      have k4 : ∀ l : List Char, (rparen :: l).count rparen = l.count rparen + 1 :=
        fun l => List.count_cons_self _ _
      simp only [k1, k2, k3, k4] at hP' h1 ⊢
      have hp : 0 < p := by
        have := h1.2
        simp only [List.count_nil] at this
        push_cast at this
        omega
      rw [run_rparen_pos _ _ hp, ih hA' b (p - 1) false, updDangling_rparen]
      · exact result_congr Iff.rfl (by push_cast; omega) _
      · intro pre hpre
        have := hP' pre hpre
        push_cast at this
        omega
    · have k1 : ∀ l : List Char, (c :: l).count lbrace = l.count lbrace :=
        fun l => List.count_cons_of_ne (Ne.symm e1) _
      have k2 : ∀ l : List Char, (c :: l).count rbrace = l.count rbrace :=
        fun l => List.count_cons_of_ne (Ne.symm e2) _
      have k3 : ∀ l : List Char, (c :: l).count lparen = l.count lparen :=
        fun l => List.count_cons_of_ne (Ne.symm e3) _
      have k4 : ∀ l : List Char, (c :: l).count rparen = l.count rparen :=
        fun l => List.count_cons_of_ne (Ne.symm e4) _
      simp only [k1, k2, k3, k4] at hP' ⊢
      rw [run_plain (not_mem_switchChars hc e1 e2 e3 e4), ih hA' b p _ hP']

theorem not_lexChar_of_bracketOpChar {c : Char} (h : bracketOpChar c = true) :
    c ∉ lexChars := by
  intro hm
  simp only [lexChars, List.mem_cons, List.mem_singleton, List.not_mem_nil, or_false] at hm
  rcases hm with rfl | rfl | rfl | rfl | rfl | rfl <;> exact absurd h (by decide)

/-- The result of the loop on bracket and operator text, from the start state. -/
theorem run_bracketOp (code : List Char) (hA : ∀ c ∈ code, bracketOpChar c = true)
    (hP : noExcessCloser code) :
    run (initState code) = some (decide (code.count lbrace = code.count rbrace) &&
      decide (code.count lparen = code.count rparen) &&
      match lastNonSpace code with
      | some x => !isOpSymbol x
      | none => true) := by
  have h := run_simple code (fun c hc => not_lexChar_of_bracketOpChar (hA c hc)) 0 0 false
    (fun pre hpre => by
      have := hP pre hpre
      omega)
  rw [initState, h, dangleAfter_eq]
  have e1 : ((0 : Int) + code.count lbrace = code.count rbrace)
      ↔ (code.count lbrace = code.count rbrace) := by omega
  have e2 : ((0 : Int) + code.count lparen = code.count rparen)
      ↔ (code.count lparen = code.count rparen) := by omega
  simp only [e1, e2]
  cases lastNonSpace code <;> rfl

/-! ## Further facts used by the claims -/

theorem not_isUseDirective_cons {c : Char} (hc : c ≠ 'u') (r : List Char) :
    ¬ isUseDirective (c :: r) := by
  rintro (h | ⟨t, h⟩)
  · have h' : c :: r = 'u' :: ['s', 'e'] := h
    exact hc (List.head_eq_of_cons_eq h')
  · have h' : 'u' :: (['s', 'e', ' '] ++ t) = c :: r := h
    exact hc (List.head_eq_of_cons_eq h').symm

theorem isUseCmd_cons_false {c : Char} (hc : c ≠ 'u') (r : List Char) :
    isUseCmd (c :: r) = false := by
  cases h : isUseCmd (c :: r)
  · rfl
  · exact absurd ((isUseCmd_iff _).mp h) (not_isUseDirective_cons hc r)

theorem isBalanced_of_not_use {code : List Char} (h : ¬ isUseDirective code) :
    isBalanced code = run (initState code) := by
  rw [isBalanced_eq, if_neg (fun hu => h ((isUseCmd_iff code).mp hu))]

theorem isBalanced_of_use {code : List Char} (h : isUseDirective code) :
    isBalanced code = some true := by
  rw [isBalanced_eq, if_pos ((isUseCmd_iff code).mpr h)]

/-- A character that is not in `use ` decides, where it stands, whether the
text is a use directive: only what precedes it counts. -/
theorem isUseDirective_append_cons {q : Char} (hq : q ∉ "use ".toList) (pre post : List Char) :
    isUseDirective (pre ++ q :: post) ↔ "use ".toList <+: pre := by
  constructor
  · rintro (h | h)
    · have hm : q ∈ "use".toList := by rw [← h]; simp
      have hq' : q ∉ "use".toList := fun hx => hq (by
        have e : "use ".toList = "use".toList ++ [' '] := by decide
        rw [e]; exact List.mem_append_left _ hx)
      exact absurd hm hq'
    · have hp : pre <+: pre ++ q :: post := List.prefix_append _ _
      by_cases hlen : "use ".toList.length ≤ pre.length
      · exact List.prefix_of_prefix_length_le h hp hlen
      · have hpq : pre ++ [q] <+: pre ++ q :: post := ⟨post, by simp⟩
        have hle : (pre ++ [q]).length ≤ "use ".toList.length := by
          simp only [List.length_append, List.length_singleton]; omega
        have hsub := List.prefix_of_prefix_length_le hpq h hle
        exact absurd (hsub.subset (by simp)) hq
  · intro h
    exact Or.inr (h.trans (List.prefix_append _ _))

/-- A run of characters without a `case` of their own only updates the flag. -/
theorem run_plain_append : ∀ (pre : List Char), (∀ c ∈ pre, c ∉ switchChars) →
    ∀ (t : List Char) (b p : Int) (d : Bool),
    run ⟨pre ++ t, b, p, d⟩ = run ⟨t, b, p, dangleAfter pre d⟩ := by
  intro pre
  induction pre with
  | nil => intro _ t b p d; rfl
  | cons c pre ih =>
    intro h t b p d
    rw [List.cons_append, run_plain (h c (List.mem_cons_self _ _)), dangleAfter_cons]
    exact ih (fun x hx => h x (List.mem_cons_of_mem _ hx)) t b p _

theorem isOpSymbol_of_isspace {c : Char} (h : isspace c = true) : isOpSymbol c = false := by
  cases ho : isOpSymbol c
  · rfl
  · rw [isspace_of_isOpSymbol ho] at h; cases h

theorem updDangling_of_isspace {c : Char} (h : isspace c = true) (d : Bool) :
    updDangling c d = d := by
  simp [updDangling, isOpSymbol_of_isspace h, h]

theorem updDangling_of_isOpSymbol {c : Char} (h : isOpSymbol c = true) (d : Bool) :
    updDangling c d = true := by
  simp [updDangling, h]

theorem dangleAfter_of_isspace : ∀ (w : List Char), (∀ x ∈ w, isspace x = true) →
    ∀ d : Bool, dangleAfter w d = d := by
  intro w
  induction w with
  | nil => intro _ d; rfl
  | cons c w ih =>
    intro h d
    rw [dangleAfter_cons, updDangling_of_isspace (h c (List.mem_cons_self _ _))]
    exact ih (fun x hx => h x (List.mem_cons_of_mem _ hx)) d

theorem not_mem_switchChars_of_isspace {c : Char} (h : isspace c = true) : c ∉ switchChars := by
  intro hm
  simp only [switchChars, List.mem_cons, List.mem_singleton, List.not_mem_nil, or_false] at hm
  rcases hm with rfl | rfl | rfl | rfl | rfl | rfl | rfl | rfl | rfl | rfl <;>
    exact absurd h (by decide)

theorem head?_ne_of_isspace {w : List Char} (h : ∀ x ∈ w, isspace x = true) {c : Char}
    (hc : isspace c = false) : w.head? ≠ some c := by
  cases w with
  | nil => simp
  | cons a w =>
    intro e
    have : a = c := by simpa using e
    rw [← this, h a (List.mem_cons_self _ _)] at hc
    cases hc

/-- Every operator symbol other than `/`, left at the end of `x = 5 ` and
followed by whitespace only, makes the text incomplete. -/
theorem trailing_operator_incomplete (c : Char) (w : List Char) (hc : c ∈ OpSymbols)
    (hs : c ≠ '/') (hw : ∀ x ∈ w, isspace x = true) :
    isBalanced ("x = 5 ".toList ++ c :: w) = some false := by
  have hnu : ¬ isUseDirective ("x = 5 ".toList ++ c :: w) :=
    not_isUseDirective_cons (c := 'x') (by decide) _
  have hpre : ∀ x ∈ "x = 5 ".toList, x ∉ switchChars := by decide
  have hwp : ∀ x ∈ w, x ∉ switchChars := fun x hx => not_mem_switchChars_of_isspace (hw x hx)
  have hend : run ⟨w, 0, 0, true⟩ = some false := by
    have := run_plain_append w hwp [] 0 0 true
    rw [List.append_nil] at this
    rw [this, dangleAfter_of_isspace w hw, run_nil]
    rfl
  rw [isBalanced_of_not_use hnu, initState, run_plain_append _ hpre]
  by_cases hplus : c = '+'
  · subst hplus
    rw [run_plus (head?_ne_of_isspace hw (by decide))]
    exact hend
  by_cases hminus : c = '-'
  · subst hminus
    rw [run_minus (head?_ne_of_isspace hw (by decide))]
    exact hend
  · have hcs : c ∉ switchChars := by
      simp only [OpSymbols, String.toList, List.mem_cons, List.mem_singleton, List.not_mem_nil,
        or_false] at hc
      rcases hc with rfl | rfl | rfl | rfl | rfl | rfl | rfl | rfl | rfl | rfl | rfl | rfl | rfl
        | rfl | rfl | rfl | rfl <;>
        first
          | exact absurd rfl hs
          | exact absurd rfl hplus
          | exact absurd rfl hminus
          | decide
    rw [run_plain hcs, updDangling_of_isOpSymbol ((isOpSymbol_iff c).mpr hc)]
    exact hend

theorem not_mem_switchChars' {c : Char} (hl : c ∉ quoteSlashChars) (h1 : c ≠ lbrace)
    (h2 : c ≠ rbrace) (h3 : c ≠ lparen) (h4 : c ≠ rparen) (h5 : c ≠ '+') (h6 : c ≠ '-') :
    c ∉ switchChars := by
  simp only [quoteSlashChars, switchChars, List.mem_cons, List.mem_singleton, List.not_mem_nil,
    or_false, not_or] at hl ⊢
  tauto

/-- Two texts that start alike (not with `+` or `-`) and on which the loop
agrees from every state, still agree after a common prefix free of quotes,
slashes and backslashes. -/
theorem run_prefix_congr (t₁ t₂ : List Char) (hh : t₁.head? = t₂.head?)
    (hplus : t₁.head? ≠ some '+') (hminus : t₁.head? ≠ some '-')
    (H : ∀ (b p : Int) (d : Bool), run ⟨t₁, b, p, d⟩ = run ⟨t₂, b, p, d⟩) :
    ∀ (n : Nat) (pre : List Char), pre.length ≤ n → (∀ c ∈ pre, c ∉ quoteSlashChars) →
    ∀ (b p : Int) (d : Bool), run ⟨pre ++ t₁, b, p, d⟩ = run ⟨pre ++ t₂, b, p, d⟩ := by
  intro n
  induction n with
  | zero =>
    intro pre hlen _ b p d
    have : pre = [] := List.length_eq_zero.mp (by omega)
    subst this
    exact H b p d
  | succ n ih =>
    intro pre hlen hpre b p d
    cases pre with
    | nil => exact H b p d
    | cons c pre' =>
      have hc : c ∉ quoteSlashChars := hpre c (List.mem_cons_self _ _)
      have hpre' : ∀ x ∈ pre', x ∉ quoteSlashChars :=
        fun x hx => hpre x (List.mem_cons_of_mem _ hx)
      have hlen' : pre'.length ≤ n := by simp only [List.length_cons] at hlen; omega
      simp only [List.cons_append]
      by_cases e1 : c = lbrace
      · subst e1; rw [run_lbrace, run_lbrace]; exact ih pre' hlen' hpre' _ _ _
      by_cases e2 : c = rbrace
      · subst e2
        by_cases hb : b ≤ 0
        · rw [run_rbrace_ret _ hb, run_rbrace_ret _ hb]
        · rw [run_rbrace_pos _ (not_le.mp hb), run_rbrace_pos _ (not_le.mp hb)]
          exact ih pre' hlen' hpre' _ _ _
      by_cases e3 : c = lparen
      · subst e3; rw [run_lparen, run_lparen]; exact ih pre' hlen' hpre' _ _ _
      by_cases e4 : c = rparen
      · subst e4
        by_cases hb : p ≤ 0
        · rw [run_rparen_ret _ _ hb, run_rparen_ret _ _ hb]
        · rw [run_rparen_pos _ _ (not_le.mp hb), run_rparen_pos _ _ (not_le.mp hb)]
          exact ih pre' hlen' hpre' _ _ _
      by_cases e5 : c = '+'
      · subst e5
        cases pre' with
        | nil =>
          simp only [List.nil_append]
          rw [run_plus hplus, run_plus (hh ▸ hplus)]
          exact H _ _ _
        | cons x pre'' =>
          simp only [List.cons_append]
          by_cases ex : x = '+'
          · subst ex
            rw [run_plus_plus, run_plus_plus]
            exact ih pre'' (by simp only [List.length_cons] at hlen'; omega)
              (fun y hy => hpre' y (List.mem_cons_of_mem _ hy)) _ _ _
          · have hx1 : (x :: (pre'' ++ t₁)).head? ≠ some '+' := by simpa using ex
            have hx2 : (x :: (pre'' ++ t₂)).head? ≠ some '+' := by simpa using ex
            rw [run_plus hx1, run_plus hx2]
            exact ih (x :: pre'') hlen' hpre' _ _ _
      by_cases e6 : c = '-'
      · subst e6
        cases pre' with
        | nil =>
          simp only [List.nil_append]
          rw [run_minus hminus, run_minus (hh ▸ hminus)]
          exact H _ _ _
        | cons x pre'' =>
          simp only [List.cons_append]
          by_cases ex : x = '-'
          · subst ex
            rw [run_minus_minus, run_minus_minus]
            exact ih pre'' (by simp only [List.length_cons] at hlen'; omega)
              (fun y hy => hpre' y (List.mem_cons_of_mem _ hy)) _ _ _
          · have hx1 : (x :: (pre'' ++ t₁)).head? ≠ some '-' := by simpa using ex
            have hx2 : (x :: (pre'' ++ t₂)).head? ≠ some '-' := by simpa using ex
            rw [run_minus hx1, run_minus hx2]
            exact ih (x :: pre'') hlen' hpre' _ _ _
      · have hcs := not_mem_switchChars' hc e1 e2 e3 e4 e5 e6
        rw [run_plain hcs, run_plain hcs]
        exact ih pre' hlen' hpre' _ _ _

theorem not_quoteSlash_of_literalPrefixChar {c : Char} (h : literalPrefixChar c = true) :
    c ∉ quoteSlashChars := by
  intro hm
  simp only [quoteSlashChars, List.mem_cons, List.mem_singleton, List.not_mem_nil,
    or_false] at hm
  rcases hm with rfl | rfl | rfl | rfl <;> exact absurd h (by decide)

/-- Whether a text is complete does not depend on what a terminated literal
contains, for either kind of quote `q`. -/
theorem isBalanced_literal_congr {q : Char} (hq : q ∉ "use ".toList)
    (hq1 : q ≠ '+') (hq2 : q ≠ '-')
    (H : ∀ (body s : List Char), q ∉ body → ∀ (b p : Int) (d : Bool),
      run ⟨q :: (body ++ q :: s), b, p, d⟩ = run ⟨s, b, p, false⟩)
    (pre body s : List Char) (hpre : ∀ c ∈ pre, literalPrefixChar c = true) (hb : q ∉ body) :
    isBalanced (pre ++ q :: (body ++ q :: s)) = isBalanced (pre ++ q :: q :: s) := by
  by_cases hu : "use ".toList <+: pre
  · rw [isBalanced_of_use ((isUseDirective_append_cons hq _ _).mpr hu),
      isBalanced_of_use ((isUseDirective_append_cons hq _ _).mpr hu)]
  · rw [isBalanced_of_not_use (fun h => hu ((isUseDirective_append_cons hq _ _).mp h)),
      isBalanced_of_not_use (fun h => hu ((isUseDirective_append_cons hq _ _).mp h))]
    refine run_prefix_congr (q :: (body ++ q :: s)) (q :: q :: s) rfl ?_ ?_ ?_
      pre.length pre (le_refl _)
      (fun c hc => not_quoteSlash_of_literalPrefixChar (hpre c hc)) 0 0 false
    · simpa using hq1
    · simpa using hq2
    · intro b p d
      rw [H body s hb, show q :: q :: s = q :: ([] ++ q :: s) from rfl,
        H [] s (List.not_mem_nil q)]

theorem not_mem_switchChars_of_isAlphanum {c : Char} (h : c.isAlphanum = true) :
    c ∉ switchChars := by
  intro hm
  simp only [switchChars, List.mem_cons, List.mem_singleton, List.not_mem_nil, or_false] at hm
  rcases hm with rfl | rfl | rfl | rfl | rfl | rfl | rfl | rfl | rfl | rfl <;>
    exact absurd h (by decide)

theorem updDangling_of_isAlphanum {c : Char} (h : c.isAlphanum = true) (d : Bool) :
    updDangling c d = false := by
  have ho : isOpSymbol c = false := by
    cases ho : isOpSymbol c
    · rfl
    · rw [isOpSymbol_iff] at ho
      simp only [OpSymbols, String.toList, List.mem_cons, List.mem_singleton,
        List.not_mem_nil, or_false] at ho
      rcases ho with rfl | rfl | rfl | rfl | rfl | rfl | rfl | rfl | rfl | rfl | rfl | rfl
        | rfl | rfl | rfl | rfl | rfl <;> exact absurd h (by decide)
  have hs : isspace c = false := by
    cases hs : isspace c
    · rfl
    · simp only [isspace, Bool.or_eq_true, beq_iff_eq] at hs
      rcases hs with ((((rfl | rfl) | rfl) | rfl) | rfl) | rfl <;> exact absurd h (by decide)
  simp [updDangling, ho, hs]

theorem not_mem_switchChars_of_operandOpChar {c : Char} (h : operandOpChar c = true) :
    c ∉ switchChars := by
  intro hm
  simp only [switchChars, List.mem_cons, List.mem_singleton, List.not_mem_nil, or_false] at hm
  rcases hm with rfl | rfl | rfl | rfl | rfl | rfl | rfl | rfl | rfl | rfl <;>
    exact absurd h (by decide)

/-- The loop leaves the brace depth alone on letters, digits, whitespace and
opening parentheses. -/
theorem run_openParenText : ∀ (pre : List Char), (∀ c ∈ pre, openParenTextChar c = true) →
    ∀ (t : List Char) (b p : Int) (d : Bool),
    ∃ (p' : Int) (d' : Bool), run ⟨pre ++ t, b, p, d⟩ = run ⟨t, b, p', d'⟩ := by
  intro pre
  induction pre with
  | nil => intro _ t b p d; exact ⟨p, d, rfl⟩
  | cons c pre ih =>
    intro h t b p d
    have hc := h c (List.mem_cons_self _ _)
    have h' : ∀ x ∈ pre, openParenTextChar x = true :=
      fun x hx => h x (List.mem_cons_of_mem _ hx)
    rw [List.cons_append]
    by_cases e : c = lparen
    · subst e; rw [run_lparen]; exact ih h' t b _ _
    · have hcs : c ∉ switchChars := by
        simp only [openParenTextChar, Bool.or_eq_true, beq_iff_eq] at hc
        rcases hc with (ha | hs) | hl
        · exact not_mem_switchChars_of_isAlphanum ha
        · exact not_mem_switchChars_of_isspace hs
        · exact absurd hl e
      rw [run_plain hcs]; exact ih h' t b _ _

/-- The loop leaves the parenthesis depth alone on letters, digits, whitespace
and opening braces. -/
theorem run_openBraceText : ∀ (pre : List Char), (∀ c ∈ pre, openBraceTextChar c = true) →
    ∀ (t : List Char) (b p : Int) (d : Bool),
    ∃ (b' : Int) (d' : Bool), run ⟨pre ++ t, b, p, d⟩ = run ⟨t, b', p, d'⟩ := by
  intro pre
  induction pre with
  | nil => intro _ t b p d; exact ⟨b, d, rfl⟩
  | cons c pre ih =>
    intro h t b p d
    have hc := h c (List.mem_cons_self _ _)
    have h' : ∀ x ∈ pre, openBraceTextChar x = true :=
      fun x hx => h x (List.mem_cons_of_mem _ hx)
    rw [List.cons_append]
    by_cases e : c = lbrace
    · subst e; rw [run_lbrace]; exact ih h' t _ p _
    · have hcs : c ∉ switchChars := by
        simp only [openBraceTextChar, Bool.or_eq_true, beq_iff_eq] at hc
        rcases hc with (ha | hs) | hl
        · exact not_mem_switchChars_of_isAlphanum ha
        · exact not_mem_switchChars_of_isspace hs
        · exact absurd hl e
      rw [run_plain hcs]; exact ih h' t _ p _

/-- One iteration keeps both depth counters non-negative. -/
theorem loopBody_next_nonneg {s s' : ScanState} (h : loopBody s = .next s')
    (hb : 0 ≤ s.brackets) (hp : 0 ≤ s.parens) : 0 ≤ s'.brackets ∧ 0 ≤ s'.parens := by
  obtain ⟨rest, b, p, d⟩ := s
  simp only at hb hp
  cases rest with
  | nil => simp [loopBody] at h
  | cons c r =>
    by_cases hc : c ∈ switchChars
    · simp only [switchChars, List.mem_cons, List.mem_singleton, List.not_mem_nil, or_false] at hc
      rcases hc with rfl | rfl | rfl | rfl | rfl | rfl | rfl | rfl | rfl | rfl
      · rcases head?_cases r '/' with ⟨r', rfl⟩ | hr
        · rw [loopBody_comment] at h; cases h; exact ⟨hb, hp⟩
        · rw [loopBody_slash hr] at h; cases h; exact ⟨hb, hp⟩
      · rw [loopBody_lbrace] at h; cases h; exact ⟨by show 0 ≤ b + 1; omega, hp⟩
      · rw [loopBody_rbrace] at h
        split at h
        · cases h
        · cases h; exact ⟨by show 0 ≤ b - 1; omega, hp⟩
      · rw [loopBody_lparen] at h; cases h; exact ⟨hb, by show 0 ≤ p + 1; omega⟩
      · rw [loopBody_rparen] at h
        split at h
        · cases h
        · cases h; exact ⟨hb, by show 0 ≤ p - 1; omega⟩
      · rw [loopBody_dquote] at h
        cases hd : List.dropWhile (fun x => x != dquote) r with
        | nil => rw [hd] at h; simp [afterSwitch] at h
        | cons a l => rw [hd, afterSwitch_cons] at h; cases h; exact ⟨hb, hp⟩
      · rw [loopBody_squote] at h
        cases hd : List.dropWhile (fun x => x != squote) r with
        | nil => rw [hd] at h; simp [afterSwitch] at h
        | cons a l => rw [hd, afterSwitch_cons] at h; cases h; exact ⟨hb, hp⟩
      · rcases head?_cases r '/' with ⟨r', rfl⟩ | hr
        · rw [loopBody_backslash_slash] at h; cases h; exact ⟨hb, hp⟩
        · rw [loopBody_backslash hr] at h; cases h; exact ⟨hb, hp⟩
      · rcases head?_cases r '+' with ⟨r', rfl⟩ | hr
        · rw [loopBody_plus_plus] at h; cases h; exact ⟨hb, hp⟩
        · rw [loopBody_plus hr] at h; cases h; exact ⟨hb, hp⟩
      · rcases head?_cases r '-' with ⟨r', rfl⟩ | hr
        · rw [loopBody_minus_minus] at h; cases h; exact ⟨hb, hp⟩
        · rw [loopBody_minus hr] at h; cases h; exact ⟨hb, hp⟩
    · rw [loopBody_plain hc] at h; cases h; exact ⟨hb, hp⟩

/-- Both depth counters are non-negative in every state the loop reaches from
a state in which they are. -/
theorem stateAfter_nonneg : ∀ (n : Nat) (s s' : ScanState), stateAfter n s = some s' →
    0 ≤ s.brackets → 0 ≤ s.parens → 0 ≤ s'.brackets ∧ 0 ≤ s'.parens := by
  intro n
  induction n with
  | zero =>
    intro s s' h hb hp
    simp only [stateAfter, Option.some.injEq] at h
    subst h
    exact ⟨hb, hp⟩
  | succ n ih =>
    intro s s' h hb hp
    simp only [stateAfter] at h
    cases hl : loopBody s with
    | ret r => rw [hl] at h; cases h
    | next s₁ =>
      rw [hl] at h
      have := loopBody_next_nonneg hl hb hp
      exact ih s₁ s' h this.1 this.2

/-! ## The reference reading and the loop -/

example : significant .code "x = \"a // b\" + 1 // c \x7b\n \\// y".toList
    = some "x = \"\" + 1  \\// y".toList := by decide

theorem dangleAfter_mono {t : List Char} (h : dangleAfter t true = false) (d : Bool) :
    dangleAfter t d = false := by
  rw [dangleAfter_eq] at h ⊢
  cases hl : lastNonSpace t with
  | some x => rw [hl] at h; exact h
  | none => rw [hl] at h; cases h

theorem Closes_nil {b p : Int} (h : Closes [] b p) : b = 0 ∧ p = 0 := by
  obtain ⟨_, h1, h2⟩ := h
  simp only [List.count_nil] at h1 h2
  push_cast at h1 h2
  omega

theorem Closes_cons_other {c : Char} {t : List Char} {b p : Int} (h : Closes (c :: t) b p)
    (e1 : c ≠ lbrace) (e2 : c ≠ rbrace) (e3 : c ≠ lparen) (e4 : c ≠ rparen) :
    Closes t b p := by
  have k1 : ∀ l : List Char, (c :: l).count lbrace = l.count lbrace :=
    fun l => List.count_cons_of_ne (Ne.symm e1) _
  have k2 : ∀ l : List Char, (c :: l).count rbrace = l.count rbrace :=
    fun l => List.count_cons_of_ne (Ne.symm e2) _
  have k3 : ∀ l : List Char, (c :: l).count lparen = l.count lparen :=
    fun l => List.count_cons_of_ne (Ne.symm e3) _
  have k4 : ∀ l : List Char, (c :: l).count rparen = l.count rparen :=
    fun l => List.count_cons_of_ne (Ne.symm e4) _
  obtain ⟨h0, h1, h2⟩ := h
  simp only [k1, k2, k3, k4] at h1 h2
  refine ⟨fun pre hpre => ?_, h1, h2⟩
  have := h0 (c :: pre) (cons_mem_inits_cons hpre)
  simpa only [k1, k2, k3, k4] using this

theorem Closes_lbrace {t : List Char} {b p : Int} (h : Closes (lbrace :: t) b p) :
    Closes t (b + 1) p := by
  have k1 : ∀ l : List Char, (lbrace :: l).count lbrace = l.count lbrace + 1 :=
    fun l => List.count_cons_self _ _
  have k2 : ∀ l : List Char, (lbrace :: l).count rbrace = l.count rbrace :=
    fun l => List.count_cons_of_ne (by decide) _
  have k3 : ∀ l : List Char, (lbrace :: l).count lparen = l.count lparen :=
    fun l => List.count_cons_of_ne (by decide) _
  have k4 : ∀ l : List Char, (lbrace :: l).count rparen = l.count rparen :=
    fun l => List.count_cons_of_ne (by decide) _
  obtain ⟨h0, h1, h2⟩ := h
  simp only [k1, k2, k3, k4] at h1 h2
  refine ⟨fun pre hpre => ?_, by push_cast at h1; omega, h2⟩
  have := h0 (lbrace :: pre) (cons_mem_inits_cons hpre)
  simp only [k1, k2, k3, k4] at this
  push_cast at this
  omega

theorem Closes_rbrace {t : List Char} {b p : Int} (h : Closes (rbrace :: t) b p) :
    0 < b ∧ Closes t (b - 1) p := by
  have k1 : ∀ l : List Char, (rbrace :: l).count lbrace = l.count lbrace :=
    fun l => List.count_cons_of_ne (by decide) _
  have k2 : ∀ l : List Char, (rbrace :: l).count rbrace = l.count rbrace + 1 :=
    fun l => List.count_cons_self _ _
  have k3 : ∀ l : List Char, (rbrace :: l).count lparen = l.count lparen :=
    fun l => List.count_cons_of_ne (by decide) _
  have k4 : ∀ l : List Char, (rbrace :: l).count rparen = l.count rparen :=
    fun l => List.count_cons_of_ne (by decide) _
  obtain ⟨h0, h1, h2⟩ := h
  simp only [k1, k2, k3, k4] at h1 h2
  have hb := (h0 [rbrace] (cons_mem_inits_cons (by simp))).1
  simp only [k1, k2, List.count_nil] at hb
  push_cast at hb
  refine ⟨by omega, fun pre hpre => ?_, by push_cast at h1; omega, h2⟩
  have := h0 (rbrace :: pre) (cons_mem_inits_cons hpre)
  simp only [k1, k2, k3, k4] at this
  push_cast at this
  omega

theorem Closes_lparen {t : List Char} {b p : Int} (h : Closes (lparen :: t) b p) :
    Closes t b (p + 1) := by
  have k1 : ∀ l : List Char, (lparen :: l).count lbrace = l.count lbrace :=
    fun l => List.count_cons_of_ne (by decide) _
  have k2 : ∀ l : List Char, (lparen :: l).count rbrace = l.count rbrace :=
    fun l => List.count_cons_of_ne (by decide) _
  have k3 : ∀ l : List Char, (lparen :: l).count lparen = l.count lparen + 1 :=
    fun l => List.count_cons_self _ _
  have k4 : ∀ l : List Char, (lparen :: l).count rparen = l.count rparen :=
    fun l => List.count_cons_of_ne (by decide) _
  obtain ⟨h0, h1, h2⟩ := h
  simp only [k1, k2, k3, k4] at h1 h2
  refine ⟨fun pre hpre => ?_, h1, by push_cast at h2; omega⟩
  have := h0 (lparen :: pre) (cons_mem_inits_cons hpre)
  simp only [k1, k2, k3, k4] at this
  push_cast at this
  omega

theorem Closes_rparen {t : List Char} {b p : Int} (h : Closes (rparen :: t) b p) :
    0 < p ∧ Closes t b (p - 1) := by
  have k1 : ∀ l : List Char, (rparen :: l).count lbrace = l.count lbrace :=
    fun l => List.count_cons_of_ne (by decide) _
  have k2 : ∀ l : List Char, (rparen :: l).count rbrace = l.count rbrace :=
    fun l => List.count_cons_of_ne (by decide) _
  have k3 : ∀ l : List Char, (rparen :: l).count lparen = l.count lparen :=
    fun l => List.count_cons_of_ne (by decide) _
  have k4 : ∀ l : List Char, (rparen :: l).count rparen = l.count rparen + 1 :=
    fun l => List.count_cons_self _ _
  obtain ⟨h0, h1, h2⟩ := h
  simp only [k1, k2, k3, k4] at h1 h2
  have hp := (h0 [rparen] (cons_mem_inits_cons (by simp))).2
  simp only [k3, k4, List.count_nil] at hp
  push_cast at hp
  refine ⟨by omega, fun pre hpre => ?_, h1, by push_cast at h2; omega⟩
  have := h0 (rparen :: pre) (cons_mem_inits_cons hpre)
  simp only [k1, k2, k3, k4] at this
  push_cast at this
  omega

theorem significant_comment : ∀ (r : List Char),
    significant .comment r = significant .code (r.dropWhile (fun x => x != '\n')).tail := by
  intro r
  induction r with
  | nil => rfl
  | cons c r ih =>
    by_cases hc : c = '\n'
    · subst hc
      simp [significant, List.dropWhile]
    · have : (c != '\n') = true := by simpa using hc
      simp only [significant, if_neg hc, List.dropWhile, this]
      exact ih

theorem significant_dstring : ∀ (r t : List Char), significant .dstring r = some t →
    ∃ body s t', r = body ++ dquote :: s ∧ dquote ∉ body ∧
      significant .code s = some t' ∧ t = dquote :: t' := by
  intro r
  induction r with
  | nil => intro t h; simp [significant] at h
  | cons c r ih =>
    intro t h
    by_cases hc : c = dquote
    · subst hc
      simp only [significant, if_true, Option.map_eq_some'] at h
      obtain ⟨t', ht', rfl⟩ := h
      exact ⟨[], r, t', rfl, List.not_mem_nil _, ht', rfl⟩
    · simp only [significant, if_neg hc] at h
      obtain ⟨body, s, t', rfl, hb, hs, rfl⟩ := ih t h
      refine ⟨c :: body, s, t', rfl, ?_, hs, rfl⟩
      simp only [List.mem_cons, not_or]
      exact ⟨fun e => hc e.symm, hb⟩

theorem significant_sstring : ∀ (r t : List Char), significant .sstring r = some t →
    ∃ body s t', r = body ++ squote :: s ∧ squote ∉ body ∧
      significant .code s = some t' ∧ t = squote :: t' := by
  intro r
  induction r with
  | nil => intro t h; simp [significant] at h
  | cons c r ih =>
    intro t h
    by_cases hc : c = squote
    · subst hc
      simp only [significant, if_true, Option.map_eq_some'] at h
      obtain ⟨t', ht', rfl⟩ := h
      exact ⟨[], r, t', rfl, List.not_mem_nil _, ht', rfl⟩
    · simp only [significant, if_neg hc] at h
      obtain ⟨body, s, t', rfl, hb, hs, rfl⟩ := ih t h
      refine ⟨c :: body, s, t', rfl, ?_, hs, rfl⟩
      simp only [List.mem_cons, not_or]
      exact ⟨fun e => hc e.symm, hb⟩

theorem significant_code_comment (r : List Char) :
    significant .code ('/' :: '/' :: r)
      = significant .code (r.dropWhile (fun x => x != '\n')).tail := by
  rw [← significant_comment]
  simp [significant]

theorem significant_code_dquote (r : List Char) :
    significant .code (dquote :: r) = (significant .dstring r).map (fun t => dquote :: t) := by
  simp [significant, dquote]

theorem significant_code_squote (r : List Char) :
    significant .code (squote :: r) = (significant .sstring r).map (fun t => squote :: t) := by
  simp [significant, dquote, squote]

theorem significant_code_escaped (r : List Char) :
    significant .code (backslash :: '/' :: r)
      = (significant .code r).map (fun t => backslash :: '/' :: t) := by
  simp [significant, dquote, squote, backslash, Option.map_map, Function.comp_def]

theorem significant_code_ordinary {c : Char} {r : List Char}
    (h1 : ¬ (c = '/' ∧ r.head? = some '/')) (h2 : c ≠ dquote) (h3 : c ≠ squote)
    (h4 : ¬ (c = backslash ∧ r.head? = some '/')) :
    significant .code (c :: r) = (significant .code r).map (fun t => c :: t) := by
  simp only [significant, if_neg h1, if_neg h2, if_neg h3, if_neg h4]

theorem updDangling_slash (d : Bool) : updDangling '/' d = true := by
  simp [updDangling, isOpSymbol, OpSymbols]

theorem updDangling_plus (d : Bool) : updDangling '+' d = true := by
  simp [updDangling, isOpSymbol, OpSymbols]

theorem updDangling_minus (d : Bool) : updDangling '-' d = true := by
  simp [updDangling, isOpSymbol, OpSymbols]

theorem updDangling_backslash (d : Bool) : updDangling backslash d = false := by
  simp [updDangling, backslash, isOpSymbol, OpSymbols, isspace]

/-- If the reference reading of a text closes the brackets that are open and
leaves no dangling operator, the loop returns true on the text. -/
theorem run_of_significant : ∀ (n : Nat) (code : List Char), code.length ≤ n →
    ∀ (t : List Char) (b p : Int) (d : Bool), significant .code code = some t →
    Closes t b p → dangleAfter t d = false → run ⟨code, b, p, d⟩ = some true := by
  intro n
  induction n with
  | zero =>
    intro code hlen t b p d hs hc hd
    have : code = [] := List.length_eq_zero.mp (by omega)
    subst this
    simp only [significant, Option.some.injEq] at hs
    subst hs
    obtain ⟨rfl, rfl⟩ := Closes_nil hc
    rw [dangleAfter_nil] at hd
    rw [run_nil, hd]
    rfl
  | succ n ih =>
    intro code hlen t b p d hs hc hd
    cases code with
    | nil =>
      simp only [significant, Option.some.injEq] at hs
      subst hs
      obtain ⟨rfl, rfl⟩ := Closes_nil hc
      rw [dangleAfter_nil] at hd
      rw [run_nil, hd]
      rfl
    | cons c r =>
      have hlen' : r.length ≤ n := by simp only [List.length_cons] at hlen; omega
      by_cases e0 : c = '/'
      · subst e0
        rcases head?_cases r '/' with ⟨r', rfl⟩ | hr
        · rw [significant_code_comment] at hs
          rw [run_comment]
          have hl := length_dropWhile_le (fun x => x != '\n') r'
          refine ih _ ?_ t b p d hs hc hd
          simp only [List.length_tail, List.length_cons] at hlen' ⊢
          omega
        · rw [significant_code_ordinary (fun h => hr h.2) (by decide) (by decide)
            (fun h => absurd h.1 (by decide))] at hs
          obtain ⟨t', ht', rfl⟩ := Option.map_eq_some'.mp hs
          rw [run_slash hr]
          refine ih r hlen' t' b p d ht'
            (Closes_cons_other hc (by decide) (by decide) (by decide) (by decide)) ?_
          rw [dangleAfter_cons, updDangling_slash] at hd
          exact dangleAfter_mono hd d
      by_cases e1 : c = lbrace
      · subst e1
        rw [significant_code_ordinary (fun h => absurd h.1 (by decide)) (by decide) (by decide)
          (fun h => absurd h.1 (by decide))] at hs
        obtain ⟨t', ht', rfl⟩ := Option.map_eq_some'.mp hs
        rw [run_lbrace]
        rw [dangleAfter_cons, updDangling_lbrace] at hd
        exact ih r hlen' t' _ p false ht' (Closes_lbrace hc) hd
      by_cases e2 : c = rbrace
      · subst e2
        rw [significant_code_ordinary (fun h => absurd h.1 (by decide)) (by decide) (by decide)
          (fun h => absurd h.1 (by decide))] at hs
        obtain ⟨t', ht', rfl⟩ := Option.map_eq_some'.mp hs
        obtain ⟨hb, hc'⟩ := Closes_rbrace hc
        rw [run_rbrace_pos _ hb]
        rw [dangleAfter_cons, updDangling_rbrace] at hd
        exact ih r hlen' t' _ p false ht' hc' hd
      by_cases e3 : c = lparen
      · subst e3
        rw [significant_code_ordinary (fun h => absurd h.1 (by decide)) (by decide) (by decide)
          (fun h => absurd h.1 (by decide))] at hs
        obtain ⟨t', ht', rfl⟩ := Option.map_eq_some'.mp hs
        rw [run_lparen]
        rw [dangleAfter_cons, updDangling_lparen] at hd
        exact ih r hlen' t' b _ false ht' (Closes_lparen hc) hd
      by_cases e4 : c = rparen
      · subst e4
        rw [significant_code_ordinary (fun h => absurd h.1 (by decide)) (by decide) (by decide)
          (fun h => absurd h.1 (by decide))] at hs
        obtain ⟨t', ht', rfl⟩ := Option.map_eq_some'.mp hs
        obtain ⟨hp, hc'⟩ := Closes_rparen hc
        rw [run_rparen_pos _ _ hp]
        rw [dangleAfter_cons, updDangling_rparen] at hd
        exact ih r hlen' t' b _ false ht' hc' hd
      by_cases e5 : c = dquote
      · subst e5
        rw [significant_code_dquote] at hs
        obtain ⟨u, hu, rfl⟩ := Option.map_eq_some'.mp hs
        obtain ⟨body, s, t', rfl, hb, hs', rfl⟩ := significant_dstring r u hu
        rw [run_dquote_closed hb]
        rw [dangleAfter_cons, dangleAfter_cons, updDangling_dquote] at hd
        refine ih s ?_ t' b p false hs' (Closes_cons_other (Closes_cons_other hc (by decide)
          (by decide) (by decide) (by decide)) (by decide) (by decide) (by decide)
          (by decide)) hd
        simp only [List.length_append, List.length_cons] at hlen'
        omega
      by_cases e6 : c = squote
      · subst e6
        rw [significant_code_squote] at hs
        obtain ⟨u, hu, rfl⟩ := Option.map_eq_some'.mp hs
        obtain ⟨body, s, t', rfl, hb, hs', rfl⟩ := significant_sstring r u hu
        rw [run_squote_closed hb]
        rw [dangleAfter_cons, dangleAfter_cons, updDangling_squote] at hd
        refine ih s ?_ t' b p false hs' (Closes_cons_other (Closes_cons_other hc (by decide)
          (by decide) (by decide) (by decide)) (by decide) (by decide) (by decide)
          (by decide)) hd
        simp only [List.length_append, List.length_cons] at hlen'
        omega
      by_cases e7 : c = backslash
      · subst e7
        rcases head?_cases r '/' with ⟨r', rfl⟩ | hr
        · rw [significant_code_escaped] at hs
          obtain ⟨t', ht', rfl⟩ := Option.map_eq_some'.mp hs
          rw [run_backslash_slash]
          rw [dangleAfter_cons, dangleAfter_cons, updDangling_slash] at hd
          refine ih r' ?_ t' b p true ht' (Closes_cons_other (Closes_cons_other hc (by decide)
            (by decide) (by decide) (by decide)) (by decide) (by decide) (by decide)
            (by decide)) hd
          simp only [List.length_cons] at hlen'
          omega
        · rw [significant_code_ordinary (fun h => absurd h.1 (by decide)) (by decide)
            (by decide) (fun h => hr h.2)] at hs
          obtain ⟨t', ht', rfl⟩ := Option.map_eq_some'.mp hs
          rw [run_backslash hr]
          rw [dangleAfter_cons, updDangling_backslash] at hd
          exact ih r hlen' t' b p false ht'
            (Closes_cons_other hc (by decide) (by decide) (by decide) (by decide)) hd
      by_cases e8 : c = '+'
      · subst e8
        rw [significant_code_ordinary (fun h => absurd h.1 (by decide)) (by decide) (by decide)
          (fun h => absurd h.1 (by decide))] at hs
        obtain ⟨t', ht', rfl⟩ := Option.map_eq_some'.mp hs
        have hc' := Closes_cons_other hc (by decide) (by decide) (by decide) (by decide)
        rw [dangleAfter_cons, updDangling_plus] at hd
        rcases head?_cases r '+' with ⟨r', rfl⟩ | hr
        · rw [significant_code_ordinary (fun h => absurd h.1 (by decide)) (by decide)
            (by decide) (fun h => absurd h.1 (by decide))] at ht'
          obtain ⟨t'', ht'', rfl⟩ := Option.map_eq_some'.mp ht'
          rw [run_plus_plus]
          rw [dangleAfter_cons, updDangling_plus] at hd
          refine ih r' ?_ t'' b p d ht''
            (Closes_cons_other hc' (by decide) (by decide) (by decide) (by decide))
            (dangleAfter_mono hd d)
          simp only [List.length_cons] at hlen'
          omega
        · rw [run_plus hr]
          exact ih r hlen' t' b p true ht' hc' hd
      by_cases e9 : c = '-'
      · subst e9
        rw [significant_code_ordinary (fun h => absurd h.1 (by decide)) (by decide) (by decide)
          (fun h => absurd h.1 (by decide))] at hs
        obtain ⟨t', ht', rfl⟩ := Option.map_eq_some'.mp hs
        have hc' := Closes_cons_other hc (by decide) (by decide) (by decide) (by decide)
        rw [dangleAfter_cons, updDangling_minus] at hd
        rcases head?_cases r '-' with ⟨r', rfl⟩ | hr
        · rw [significant_code_ordinary (fun h => absurd h.1 (by decide)) (by decide)
            (by decide) (fun h => absurd h.1 (by decide))] at ht'
          obtain ⟨t'', ht'', rfl⟩ := Option.map_eq_some'.mp ht'
          rw [run_minus_minus]
          rw [dangleAfter_cons, updDangling_minus] at hd
          refine ih r' ?_ t'' b p d ht''
            (Closes_cons_other hc' (by decide) (by decide) (by decide) (by decide))
            (dangleAfter_mono hd d)
          simp only [List.length_cons] at hlen'
          omega
        · rw [run_minus hr]
          exact ih r hlen' t' b p true ht' hc' hd
      · rw [significant_code_ordinary (fun h => e0 h.1) e5 e6 (fun h => e7 h.1)] at hs
        obtain ⟨t', ht', rfl⟩ := Option.map_eq_some'.mp hs
        have hcs : c ∉ switchChars := by
          simp only [switchChars, List.mem_cons, List.mem_singleton, List.not_mem_nil,
            or_false, not_or]
          exact ⟨e0, e1, e2, e3, e4, e5, e6, e7, e8, e9⟩
        rw [run_plain hcs]
        rw [dangleAfter_cons] at hd
        exact ih r hlen' t' b p _ ht' (Closes_cons_other hc e1 e2 e3 e4) hd

theorem Closes_of_balancedText {t : List Char} (h : balancedText t) : Closes t 0 0 := by
  obtain ⟨h0, h1, h2⟩ := h
  refine ⟨fun pre hpre => ?_, by omega, by omega⟩
  have := h0 pre hpre
  omega

/-! ## The history -/

theorem submitAll_append (l : List (List Char)) (x : List Char) :
    submitAll (l ++ [x]) = shellHistoryAdd (submitAll l) x := by
  simp [submitAll, List.foldl_append]

theorem prevNonEmpty_append (l : List (List Char)) (x : List Char) :
    prevNonEmpty (l ++ [x]) = if x = [] then prevNonEmpty l else some x := by
  unfold prevNonEmpty
  by_cases hx : x = []
  · simp [hx, List.filter_append]
  · simp [hx, List.filter_append]

theorem prevNonEmpty_ne_nil : ∀ (l : List (List Char)) (x : List Char),
    prevNonEmpty l = some x → x ≠ [] := by
  intro l x h
  unfold prevNonEmpty at h
  have hm := List.mem_of_getLast?_eq_some h
  simpa using (List.mem_filter.mp hm).2

/-- The static `lastLine` holds the line of the last non-empty submission. -/
theorem lastLine_submitAll (l : List (List Char)) :
    (submitAll l).lastLine = (prevNonEmpty l).getD [] := by
  induction l using List.reverseRecOn with
  | nil => rfl
  | append_singleton l x ih =>
    rw [submitAll_append, prevNonEmpty_append]
    unfold shellHistoryAdd
    by_cases hx : x = []
    · simp [hx, ih]
    · simp only [hx, if_false]
      split
      · rename_i h; simpa using h
      · split <;> simp

/-- No recorded line contains `.auth`. -/
theorem log_submitAll_no_auth (l : List (List Char)) :
    ∀ e ∈ (submitAll l).log, ¬ authMarker <:+: e := by
  induction l using List.reverseRecOn with
  | nil => intro e he; simp [submitAll, emptyHistory] at he
  | append_singleton l x ih =>
    rw [submitAll_append]
    unfold shellHistoryAdd
    intro e he
    split at he
    · exact ih e he
    · split at he
      · exact ih e he
      · split at he
        · exact ih e he
        · rename_i hauth
          simp only [List.mem_append, List.mem_singleton] at he
          rcases he with he | rfl
          · exact ih e he
          · exact hauth

/-- A call records its line exactly when the line is not empty, differs from
`lastLine` and does not contain `.auth`; otherwise it leaves the log alone. -/
theorem log_shellHistoryAdd (h : History) (line : List Char) :
    (shellHistoryAdd h line).log =
      if line ≠ [] ∧ h.lastLine ≠ line ∧ ¬ authMarker <:+: line then h.log ++ [line]
      else h.log := by
  unfold shellHistoryAdd
  by_cases h1 : line = []
  · simp [h1]
  · by_cases h2 : h.lastLine = line
    · simp [h1, h2]
    · by_cases h3 : authMarker <:+: line
      · simp [h1, h2, h3]
      · simp [h1, h2, h3]

theorem lastLine_ne_iff (before : List (List Char)) {line : List Char} (hl : line ≠ []) :
    (submitAll before).lastLine ≠ line ↔ prevNonEmpty before ≠ some line := by
  rw [lastLine_submitAll]
  cases hp : prevNonEmpty before with
  | none => simp [Ne.symm hl]
  | some x => simp

/-! ## Operand and operator text before a literal -/

theorem not_mem_switchChars_of_opTextChar {c : Char} (h : opTextChar c = true)
    (hp : c ≠ '+') (hm : c ≠ '-') : c ∉ switchChars := by
  intro hs
  simp only [switchChars, List.mem_cons, List.mem_singleton, List.not_mem_nil, or_false] at hs
  rcases hs with rfl | rfl | rfl | rfl | rfl | rfl | rfl | rfl | rfl | rfl <;>
    first
      | exact absurd rfl hp
      | exact absurd rfl hm
      | exact absurd h (by decide)

/-- Over letters, digits, whitespace and operator symbols other than `/` the
loop changes nothing but the dangling-operator flag, whatever follows, as long
as what follows does not start with `+` or `-`. -/
theorem run_opText (t : List Char) (hplus : t.head? ≠ some '+') (hminus : t.head? ≠ some '-') :
    ∀ (n : Nat) (pre : List Char), pre.length ≤ n → (∀ c ∈ pre, opTextChar c = true) →
    ∀ (b p : Int) (d : Bool), ∃ d' : Bool, run ⟨pre ++ t, b, p, d⟩ = run ⟨t, b, p, d'⟩ := by
  intro n
  induction n with
  | zero =>
    intro pre hlen _ b p d
    have : pre = [] := List.length_eq_zero.mp (by omega)
    subst this
    exact ⟨d, rfl⟩
  | succ n ih =>
    intro pre hlen hpre b p d
    cases pre with
    | nil => exact ⟨d, rfl⟩
    | cons c pre' =>
      have hc := hpre c (List.mem_cons_self _ _)
      have hpre' : ∀ x ∈ pre', opTextChar x = true :=
        fun x hx => hpre x (List.mem_cons_of_mem _ hx)
      have hlen' : pre'.length ≤ n := by simp only [List.length_cons] at hlen; omega
      simp only [List.cons_append]
      by_cases e5 : c = '+'
      · subst e5
        cases pre' with
        | nil =>
          simp only [List.nil_append]
          exact ⟨true, run_plus hplus b p d⟩
        | cons x pre'' =>
          simp only [List.cons_append]
          by_cases ex : x = '+'
          · subst ex
            rw [run_plus_plus]
            exact ih pre'' (by simp only [List.length_cons] at hlen'; omega)
              (fun y hy => hpre' y (List.mem_cons_of_mem _ hy)) _ _ _
          · have hx : (x :: (pre'' ++ t)).head? ≠ some '+' := by simpa using ex
            rw [run_plus hx]
            exact ih (x :: pre'') hlen' hpre' _ _ _
      by_cases e6 : c = '-'
      · subst e6
        cases pre' with
        | nil =>
          simp only [List.nil_append]
          exact ⟨true, run_minus hminus b p d⟩
        | cons x pre'' =>
          simp only [List.cons_append]
          by_cases ex : x = '-'
          · subst ex
            rw [run_minus_minus]
            exact ih pre'' (by simp only [List.length_cons] at hlen'; omega)
              (fun y hy => hpre' y (List.mem_cons_of_mem _ hy)) _ _ _
          · have hx : (x :: (pre'' ++ t)).head? ≠ some '-' := by simpa using ex
            rw [run_minus hx]
            exact ih (x :: pre'') hlen' hpre' _ _ _
      · rw [run_plain (not_mem_switchChars_of_opTextChar hc e5 e6)]
        exact ih pre' hlen' hpre' _ _ _

/-- After operand and operator text, an unterminated literal opened by the
quote `q` makes the text complete. -/
theorem isBalanced_open_literal {q : Char}
    (hq1 : q ≠ '+') (hq2 : q ≠ '-')
    (H : ∀ (body : List Char), q ∉ body → ∀ (b p : Int) (d : Bool),
      run ⟨q :: body, b, p, d⟩ = some (decide (b = 0) && decide (p = 0)))
    (pre body : List Char) (hpre : ∀ c ∈ pre, opTextChar c = true) (hb : q ∉ body) :
    isBalanced (pre ++ q :: body) = some true := by
  rw [isBalanced_eq]
  split
  · rfl
  · obtain ⟨d', hd⟩ := run_opText (q :: body) (by simpa using hq1) (by simpa using hq2)
      pre.length pre (le_refl _) hpre 0 0 false
    rw [initState, hd, H body hb]
    rfl

/-! ## A newline at the end of the text -/

theorem first_occurrence {q : Char} : ∀ {l : List Char}, q ∈ l →
    ∃ body s, l = body ++ q :: s ∧ q ∉ body := by
  intro l
  induction l with
  | nil => intro h; cases h
  | cons a l ih =>
    intro h
    by_cases ha : a = q
    · exact ⟨[], l, by rw [ha]; rfl, List.not_mem_nil _⟩
    · have hl : q ∈ l := by
        rcases List.mem_cons.mp h with e | e
        · exact absurd e.symm ha
        · exact e
      obtain ⟨body, s, rfl, hb⟩ := ih hl
      refine ⟨a :: body, s, rfl, ?_⟩
      simp only [List.mem_cons, not_or]
      exact ⟨fun e => ha e.symm, hb⟩

theorem head?_append_ne {r : List Char} {c x : Char} (h : r.head? ≠ some c) (hx : x ≠ c) :
    (r ++ [x]).head? ≠ some c := by
  cases r with
  | nil => simpa using hx
  | cons a r => simpa using h

/-- A newline at the end of the text changes nothing for the loop. -/
theorem run_append_newline : ∀ (n : Nat) (code : List Char), code.length ≤ n →
    ∀ (b p : Int) (d : Bool), run ⟨code ++ ['\n'], b, p, d⟩ = run ⟨code, b, p, d⟩ := by
  intro n
  induction n with
  | zero =>
    intro code hlen b p d
    have : code = [] := List.length_eq_zero.mp (by omega)
    subst this
    rw [List.nil_append, run_plain (by decide), updDangling_of_isspace (by decide)]
  | succ n ih =>
    intro code hlen b p d
    cases code with
    | nil => rw [List.nil_append, run_plain (by decide), updDangling_of_isspace (by decide)]
    | cons c r =>
      have hlen' : r.length ≤ n := by simp only [List.length_cons] at hlen; omega
      simp only [List.cons_append]
      by_cases e0 : c = '/'
      · subst e0
        rcases head?_cases r '/' with ⟨r', rfl⟩ | hr
        · simp only [List.cons_append]
          rw [run_comment, run_comment]
          by_cases hn : '\n' ∈ r'
          · obtain ⟨body, s, rfl, hb⟩ := first_occurrence hn
            rw [List.append_assoc, List.cons_append, dropWhile_ne_append hb,
              dropWhile_ne_append hb]
            refine ih s ?_ b p d
            simp only [List.length_cons, List.length_append] at hlen'
            omega
          · rw [dropWhile_ne_append hn, dropWhile_ne_of_not_mem hn]
            rfl
        · rw [run_slash hr, run_slash (head?_append_ne hr (by decide))]
          exact ih r hlen' b p d
      by_cases e1 : c = lbrace
      · subst e1; rw [run_lbrace, run_lbrace]; exact ih r hlen' _ _ _
      by_cases e2 : c = rbrace
      · subst e2
        by_cases hb : b ≤ 0
        · rw [run_rbrace_ret _ hb, run_rbrace_ret _ hb]
        · rw [run_rbrace_pos _ (not_le.mp hb), run_rbrace_pos _ (not_le.mp hb)]
          exact ih r hlen' _ _ _
      by_cases e3 : c = lparen
      · subst e3; rw [run_lparen, run_lparen]; exact ih r hlen' _ _ _
      by_cases e4 : c = rparen
      · subst e4
        by_cases hb : p ≤ 0
        · rw [run_rparen_ret _ _ hb, run_rparen_ret _ _ hb]
        · rw [run_rparen_pos _ _ (not_le.mp hb), run_rparen_pos _ _ (not_le.mp hb)]
          exact ih r hlen' _ _ _
      by_cases e5 : c = dquote
      · subst e5
        by_cases hq : dquote ∈ r
        · obtain ⟨body, s, rfl, hb⟩ := first_occurrence hq
          rw [List.append_assoc, List.cons_append, run_dquote_closed hb, run_dquote_closed hb]
          refine ih s ?_ b p false
          simp only [List.length_cons, List.length_append] at hlen'
          omega
        · have hq' : dquote ∉ r ++ ['\n'] := by
            simp only [List.mem_append, List.mem_singleton, not_or]
            exact ⟨hq, by decide⟩
          rw [run_dquote_open hq', run_dquote_open hq]
      by_cases e6 : c = squote
      · subst e6
        by_cases hq : squote ∈ r
        · obtain ⟨body, s, rfl, hb⟩ := first_occurrence hq
          rw [List.append_assoc, List.cons_append, run_squote_closed hb, run_squote_closed hb]
          refine ih s ?_ b p false
          simp only [List.length_cons, List.length_append] at hlen'
          omega
        · have hq' : squote ∉ r ++ ['\n'] := by
            simp only [List.mem_append, List.mem_singleton, not_or]
            exact ⟨hq, by decide⟩
          rw [run_squote_open hq', run_squote_open hq]
      by_cases e7 : c = backslash
      · subst e7
        rcases head?_cases r '/' with ⟨r', rfl⟩ | hr
        · simp only [List.cons_append]
          rw [run_backslash_slash, run_backslash_slash]
          exact ih r' (by simp only [List.length_cons] at hlen'; omega) _ _ _
        · rw [run_backslash hr, run_backslash (head?_append_ne hr (by decide))]
          exact ih r hlen' _ _ _
      by_cases e8 : c = '+'
      · subst e8
        rcases head?_cases r '+' with ⟨r', rfl⟩ | hr
        · simp only [List.cons_append]
          rw [run_plus_plus, run_plus_plus]
          exact ih r' (by simp only [List.length_cons] at hlen'; omega) _ _ _
        · rw [run_plus hr, run_plus (head?_append_ne hr (by decide))]
          exact ih r hlen' _ _ _
      by_cases e9 : c = '-'
      · subst e9
        rcases head?_cases r '-' with ⟨r', rfl⟩ | hr
        · simp only [List.cons_append]
          rw [run_minus_minus, run_minus_minus]
          exact ih r' (by simp only [List.length_cons] at hlen'; omega) _ _ _
        · rw [run_minus hr, run_minus (head?_append_ne hr (by decide))]
          exact ih r hlen' _ _ _
      · have hcs : c ∉ switchChars := by
          simp only [switchChars, List.mem_cons, List.mem_singleton, List.not_mem_nil,
            or_false, not_or]
          exact ⟨e0, e1, e2, e3, e4, e5, e6, e7, e8, e9⟩
        rw [run_plain hcs, run_plain hcs]
        exact ih r hlen' _ _ _

/-- A text that is not balanced stays so when a newline is added at its end. -/
theorem isBalanced_append_newline {code : List Char} (h : isBalanced code = some false) :
    isBalanced (code ++ ['\n']) = some false := by
  have hnu : ¬ isUseDirective code := by
    intro hu
    rw [isBalanced_of_use hu] at h
    cases h
  have hnu' : ¬ isUseDirective (code ++ ['\n']) := fun hu =>
    hnu (Or.inr ((isUseDirective_append_cons (by decide) code []).mp hu))
  rw [isBalanced_of_not_use hnu] at h
  rw [isBalanced_of_not_use hnu', initState, run_append_newline code.length code (le_refl _)]
  exact h

/-! ## The continuation loop -/

/-- A read made in multi-line mode always returns: a `SIGINT` only sets the
flags `dbexitCalled` and `gotInterrupted`, and a null line sets
`gotInterrupted`. -/
theorem shellReadline_multiline (env : KillEnv) (cfg : KillConfig) (f : Flags)
    (ev : ReadEvent) (hm : f.inMultiLine = true) :
    shellReadline env cfg f ev
      = .returned ⟨f.gotInterrupted || ev.sigint || ev.line.isNone, true, false,
          f.dbexitCalled || ev.sigint⟩ ev.line := by
  obtain ⟨g, m, a, x⟩ := f
  obtain ⟨line, sig⟩ := ev
  simp only at hm
  subst hm
  cases sig <;> cases line <;>
    simp [shellReadline, quitNicely, readReturn]

theorem not_infix_newlines {code : List Char} (h : code.count '\n' < 3) :
    ¬ "\n\n\n".toList <:+: code := by
  intro hi
  have := hi.sublist.count_le '\n'
  have h3 : List.count '\n' "\n\n\n".toList = 3 := by decide
  omega

/-- An iteration of the loop of `finishCode` that reads a line and goes on. -/
theorem finishIter_line (env : KillEnv) (cfg : KillConfig) (f : Flags) (code l : List Char)
    (here rest : List ReadEvent) (again : Flags → List Char → FinishOutcome)
    (hb : isBalanced code = some false) (hi : ¬ "\n\n\n".toList <:+: code ++ ['\n'])
    (hf : f.gotInterrupted = false) :
    finishIter env cfg f code ⟨some l, false⟩ here rest again
      = again ⟨false, true, false, f.dbexitCalled⟩ (code ++ ['\n'] ++ stripPrompt l) := by
  unfold finishIter
  simp only [hb, if_neg hi]
  rw [shellReadline_multiline env cfg _ _ rfl]
  simp [hf]

/-- An iteration of the loop of `finishCode` that finds two blank lines. -/
theorem finishIter_cancel (env : KillEnv) (cfg : KillConfig) (f : Flags) (code : List Char)
    (ev : ReadEvent) (here rest : List ReadEvent)
    (again : Flags → List Char → FinishOutcome)
    (hb : isBalanced code = some false) (hi : "\n\n\n".toList <:+: code ++ ['\n']) :
    finishIter env cfg f code ev here rest again
      = .returned ";".toList { f with inMultiLine := true } here := by
  unfold finishIter
  simp only [hb, if_pos hi]

/-- An iteration of the loop of `finishCode` that returns leaves `here`
unread, unless it has made its read; and if that read was interrupted or gave
no line, it returns the empty text with the interrupted flag set. -/
theorem finishIter_interrupted (env : KillEnv) (cfg : KillConfig) (f : Flags)
    (code : List Char) (ev : ReadEvent) (here rest : List ReadEvent)
    (again : Flags → List Char → FinishOutcome)
    (hev : ev.sigint = true ∨ ev.line = none) :
    (∃ t g, finishIter env cfg f code ev here rest again = .returned t g here) ∨
    finishIter env cfg f code ev here rest again = .stuck ∨
    ∃ g, g.gotInterrupted = true ∧
      finishIter env cfg f code ev here rest again = .returned [] g rest := by
  unfold finishIter
  cases hb : isBalanced code with
  | none => exact Or.inr (Or.inl rfl)
  | some r =>
    cases r with
    | true => exact Or.inl ⟨_, _, rfl⟩
    | false =>
      simp only
      split
      · exact Or.inl ⟨_, _, rfl⟩
      · rw [shellReadline_multiline env cfg _ _ rfl]
        refine Or.inr (Or.inr ⟨⟨true, true, false, f.dbexitCalled || ev.sigint⟩, rfl, ?_⟩)
        rcases hev with h | h
        · simp [h]
        · simp [h]

/-- The four ways in which an iteration of the loop of `finishCode` ends. -/
theorem finishIter_cases (env : KillEnv) (cfg : KillConfig) (f : Flags)
    (code : List Char) (ev : ReadEvent) (here rest : List ReadEvent)
    (again : Flags → List Char → FinishOutcome) :
    (∃ t g, finishIter env cfg f code ev here rest again = .returned t g here) ∨
    finishIter env cfg f code ev here rest again = .stuck ∨
    (∃ g, finishIter env cfg f code ev here rest again = .returned [] g rest) ∨
    ∃ g c, finishIter env cfg f code ev here rest again = again g c := by
  unfold finishIter
  cases hb : isBalanced code with
  | none => exact Or.inr (Or.inl rfl)
  | some r =>
    cases r with
    | true => exact Or.inl ⟨_, _, rfl⟩
    | false =>
      simp only
      split
      · exact Or.inl ⟨_, _, rfl⟩
      · rw [shellReadline_multiline env cfg _ _ rfl]
        simp only
        split
        · exact Or.inr (Or.inr (Or.inl ⟨_, rfl⟩))
        · split
          · exact Or.inr (Or.inr (Or.inl ⟨_, rfl⟩))
          · exact Or.inr (Or.inr (Or.inr ⟨_, _, rfl⟩))

theorem finishCode_cons (env : KillEnv) (cfg : KillConfig) (ev : ReadEvent)
    (rest : List ReadEvent) (f : Flags) (code : List Char) :
    finishCode env cfg (ev :: rest) f code
      = finishIter env cfg f code ev (ev :: rest) rest
          (fun f' code' => finishCode env cfg rest f' code') := rfl

theorem finishCode_nil (env : KillEnv) (cfg : KillConfig) (f : Flags) (code : List Char) :
    finishCode env cfg [] f code
      = finishIter env cfg f code endOfInput [] [] (fun _ _ => .stuck) := rfl

/-- If `finishCode` returns after the read `ev`, which was interrupted or gave
no line, has been made, then it returns the empty text with the interrupted
flag set, and it has read nothing after `ev`. -/
theorem finishCode_read_interrupted (env : KillEnv) (cfg : KillConfig) (ev : ReadEvent)
    (rest : List ReadEvent) (hev : ev.sigint = true ∨ ev.line = none) :
    ∀ (pre : List ReadEvent) (f : Flags) (code text : List Char) (f' : Flags)
      (rest' : List ReadEvent),
    finishCode env cfg (pre ++ ev :: rest) f code = .returned text f' rest' →
    rest'.length ≤ rest.length → text = [] ∧ f'.gotInterrupted = true ∧ rest' = rest := by
  intro pre
  induction pre with
  | nil =>
    intro f code text f' rest' h hlen
    rw [List.nil_append, finishCode_cons] at h
    rcases finishIter_interrupted env cfg f code ev (ev :: rest) rest
      (fun f' code' => finishCode env cfg rest f' code') hev with ⟨t, g, e⟩ | e | ⟨g, hg, e⟩
    · rw [e] at h
      simp only [FinishOutcome.returned.injEq] at h
      rw [← h.2.2] at hlen
      simp only [List.length_cons] at hlen
      omega
    · rw [e] at h; cases h
    · rw [e] at h
      simp only [FinishOutcome.returned.injEq] at h
      obtain ⟨h1, h2, h3⟩ := h
      exact ⟨h1.symm, h2 ▸ hg, h3.symm⟩
  | cons e0 pre ih =>
    intro f code text f' rest' h hlen
    rw [List.cons_append, finishCode_cons] at h
    rcases finishIter_cases env cfg f code e0 (e0 :: (pre ++ ev :: rest)) (pre ++ ev :: rest)
      (fun f' code' => finishCode env cfg (pre ++ ev :: rest) f' code')
      with ⟨t, g, e⟩ | e | ⟨g, e⟩ | ⟨g, c, e⟩
    · rw [e] at h
      simp only [FinishOutcome.returned.injEq] at h
      rw [← h.2.2] at hlen
      simp only [List.length_cons, List.length_append] at hlen
      omega
    · rw [e] at h; cases h
    · rw [e] at h
      simp only [FinishOutcome.returned.injEq] at h
      rw [← h.2.2] at hlen
      simp only [List.length_cons, List.length_append] at hlen
      omega
    · rw [e] at h
      exact ih g c text f' rest' h hlen

/-- An iteration of the loop of `finishCode` that does not come to its read
returns with nothing consumed and the interrupted flag as it was. -/
theorem finishIter_no_read (env : KillEnv) (cfg : KillConfig) (f : Flags) (code : List Char)
    (ev : ReadEvent) (here rest : List ReadEvent)
    (again : Flags → List Char → FinishOutcome) (hr : readsOn code = false) :
    ∃ text f', finishIter env cfg f code ev here rest again = .returned text f' here ∧
      f'.gotInterrupted = f.gotInterrupted := by
  unfold finishIter
  obtain ⟨r, hb⟩ := isBalanced_total code
  rw [hb]
  cases r with
  | true => exact ⟨_, _, rfl, rfl⟩
  | false =>
    simp only
    split
    · exact ⟨_, _, rfl, rfl⟩
    · rename_i hi
      have hr' : readsOn code = true := by
        simp only [readsOn, Bool.and_eq_true, decide_eq_true_eq, Bool.not_eq_true',
          decide_eq_false_iff_not]
        exact ⟨hb, hi⟩
      rw [hr'] at hr
      cases hr

/-- Conversely, when the accumulation is not under way after the lines `lines`
(the text has become balanced, or two blank lines have been met), `finishCode`
returns before the read that follows them: that read and all after it are left
unread, and the interrupted flag stays clear. -/
theorem finishCode_not_accumulating (env : KillEnv) (cfg : KillConfig)
    (tail : List ReadEvent) :
    ∀ (lines : List (List Char)) (f : Flags) (code : List Char),
    f.gotInterrupted = false → accumulating code lines = false →
    ∃ text f' k, finishCode env cfg (lineReads lines ++ tail) f code
        = .returned text f' (lineReads (lines.drop k) ++ tail) ∧
      f'.gotInterrupted = false := by
  intro lines
  induction lines with
  | nil =>
    intro f code hf hacc
    rw [lineReads, List.map_nil, List.nil_append]
    cases tail with
    | nil =>
      obtain ⟨t, g, e, hg⟩ := finishIter_no_read env cfg f code endOfInput [] []
        (fun _ _ => .stuck) hacc
      exact ⟨t, g, 0, by rw [finishCode_nil, e]; rfl, hg.trans hf⟩
    | cons e0 tl =>
      obtain ⟨t, g, e, hg⟩ := finishIter_no_read env cfg f code e0 (e0 :: tl) tl
        (fun f' code' => finishCode env cfg tl f' code') hacc
      exact ⟨t, g, 0, by rw [finishCode_cons, e]; rfl, hg.trans hf⟩
  | cons l ls ih =>
    intro f code hf hacc
    cases hr : readsOn code with
    | false =>
      obtain ⟨t, g, e, hg⟩ := finishIter_no_read env cfg f code ⟨some l, false⟩
        (⟨some l, false⟩ :: (lineReads ls ++ tail)) (lineReads ls ++ tail)
        (fun f' code' => finishCode env cfg (lineReads ls ++ tail) f' code') hr
      refine ⟨t, g, 0, ?_, hg.trans hf⟩
      rw [lineReads, List.map_cons, List.cons_append, finishCode_cons]
      exact e
    | true =>
      have hacc' : accumulating (code ++ ['\n'] ++ stripPrompt l) ls = false := by
        simp only [accumulating, hr, Bool.true_and] at hacc
        exact hacc
      simp only [readsOn, Bool.and_eq_true, decide_eq_true_eq, Bool.not_eq_true',
        decide_eq_false_iff_not] at hr
      obtain ⟨t, g, k, e, hg⟩ := ih ⟨false, true, false, f.dbexitCalled⟩ _ rfl hacc'
      refine ⟨t, g, k + 1, ?_, hg⟩
      rw [lineReads, List.map_cons, List.cons_append, finishCode_cons,
        finishIter_line env cfg f code l _ _ _ hr.1 hr.2 hf]
      exact e

/-- The function `finishCode` returns on every input: while it reads it is in
multi-line mode, where a signal does not end the process, and it stops at the
latest when the input ends. -/
theorem finishCode_returns (env : KillEnv) (cfg : KillConfig) :
    ∀ (reads : List ReadEvent) (f : Flags) (code : List Char),
    ∃ text f' rest, finishCode env cfg reads f code = .returned text f' rest := by
  have key : ∀ (f : Flags) (code : List Char) (ev : ReadEvent) (here rest : List ReadEvent)
      (again : Flags → List Char → FinishOutcome),
      (ev.line ≠ none → ∀ g c, ∃ text f' r, again g c = .returned text f' r) →
      ∃ text f' r, finishIter env cfg f code ev here rest again = .returned text f' r := by
    intro f code ev here rest again hag
    unfold finishIter
    obtain ⟨r, hb⟩ := isBalanced_total code
    rw [hb]
    cases r with
    | true => exact ⟨_, _, _, rfl⟩
    | false =>
      simp only
      split
      · exact ⟨_, _, _, rfl⟩
      · rw [shellReadline_multiline env cfg _ _ rfl]
        simp only
        split
        · exact ⟨_, _, _, rfl⟩
        · cases hl : ev.line with
          | none => exact ⟨_, _, _, rfl⟩
          | some l => exact hag (by rw [hl]; exact Option.some_ne_none l) _ _
  intro reads
  induction reads with
  | nil =>
    intro f code
    rw [finishCode_nil]
    exact key f code endOfInput [] [] _ (fun h => absurd rfl h)
  | cons ev rest ih =>
    intro f code
    rw [finishCode_cons]
    exact key f code ev _ rest _ (fun _ g c => ih g c)

/-! ## The claims -/

/-- C1. On bracket and operator text (letters, digits, whitespace, `;`, braces,
parentheses, operator symbols other than `/`, `+`, `-`) that is not a use
directive and in which no prefix has a closer in excess, `isBalanced` returns
true exactly when the braces are as many opening as closing, the parentheses
likewise, and the last non-whitespace character, if any, is not an operator
symbol; otherwise it returns false. -/
theorem isBalanced_bracketOp_iff (code : List Char)
    (hA : ∀ c ∈ code, bracketOpChar c = true) (hU : ¬ isUseDirective code)
    (hP : noExcessCloser code) :
    (isBalanced code = some true ↔
      (code.count lbrace = code.count rbrace ∧ code.count lparen = code.count rparen ∧
        ∀ c, lastNonSpace code = some c → c ∉ OpSymbols)) ∧
    (isBalanced code = some false ↔
      ¬ (code.count lbrace = code.count rbrace ∧ code.count lparen = code.count rparen ∧
        ∀ c, lastNonSpace code = some c → c ∉ OpSymbols)) := by
  have hu : ¬ isUseCmd code = true := fun h => hU ((isUseCmd_iff code).mp h)
  rw [isBalanced_eq, if_neg hu, run_bracketOp code hA hP]
  cases hl : lastNonSpace code with
  | none => simp
  | some x =>
    have h1 := isOpSymbol_iff x
    by_cases hx : x ∈ OpSymbols
    · simp [hx, h1.mpr hx]
    · have h2 : isOpSymbol x = false := by
        cases h : isOpSymbol x
        · rfl
        · exact absurd (h1.mp h) hx
      simp [hx, h2]

/-- C1, at the texts the unit test asserts. -/
theorem isBalanced_bracketOp_iff_witness :
    isBalanced "function()\x7b".toList = some false ∧
    isBalanced "function()\x7b\x7d".toList = some true ∧
    isBalanced "function()\x7b\n\x7d".toList = some true ∧
    isBalanced "a.b".toList = some true ∧
    isBalanced "a. ".toList = some false :=
  ⟨(isBalanced_bracketOp_iff "function()\x7b".toList (by decide) (by decide) (by decide)).2.mpr
      (fun h => absurd h.1 (by decide)),
   (isBalanced_bracketOp_iff "function()\x7b\x7d".toList (by decide) (by decide)
      (by decide)).1.mpr
      ⟨by decide, by decide, fun c h => by
        rw [show lastNonSpace "function()\x7b\x7d".toList = some rbrace by decide] at h
        cases h; decide⟩,
   (isBalanced_bracketOp_iff "function()\x7b\n\x7d".toList (by decide) (by decide)
      (by decide)).1.mpr
      ⟨by decide, by decide, fun c h => by
        rw [show lastNonSpace "function()\x7b\n\x7d".toList = some rbrace by decide] at h
        cases h; decide⟩,
   (isBalanced_bracketOp_iff "a.b".toList (by decide) (by decide) (by decide)).1.mpr
      ⟨by decide, by decide, fun c h => by
        rw [show lastNonSpace "a.b".toList = some 'b' by decide] at h
        cases h; decide⟩,
   (isBalanced_bracketOp_iff "a. ".toList (by decide) (by decide) (by decide)).2.mpr
      (fun h => absurd (h.2.2 '.' (by decide)) (by decide))⟩

/-- C3. The slash is an operator symbol, yet a single trailing slash does not
leave the statement incomplete: `x = 5 /` is reported complete, with or without
whitespace after it. -/
theorem isBalanced_trailing_slash :
    '/' ∈ OpSymbols ∧ isOpSymbol '/' = true ∧
    isBalanced "x = 5 /".toList = some true ∧
    isBalanced "x = 5 / ".toList = some true ∧
    isBalanced "x = 5 /\n".toList = some true := by
  decide

/-- C4. A line comment absorbs the rest of its line and nothing else: `//`
followed by text without a newline is complete, and `//`, such text, a newline
and a text `s` that is not a use directive is complete exactly when `s` is. -/
theorem isBalanced_line_comment (c : List Char) (hc : '\n' ∉ c) :
    isBalanced ("//".toList ++ c) = some true ∧
    ∀ s : List Char, ¬ isUseDirective s →
      isBalanced ("//".toList ++ c ++ "\n".toList ++ s) = isBalanced s := by
  constructor
  · have hnu : ¬ isUseDirective ("//".toList ++ c) :=
      not_isUseDirective_cons (c := '/') (by decide) _
    rw [isBalanced_of_not_use hnu]
    show run ⟨'/' :: '/' :: c, 0, 0, false⟩ = some true
    rw [run_comment, dropWhile_ne_of_not_mem hc]
    exact run_nil 0 0 false
  · intro s hs
    have hnu : ¬ isUseDirective ("//".toList ++ c ++ "\n".toList ++ s) :=
      not_isUseDirective_cons (c := '/') (by decide) _
    rw [isBalanced_of_not_use hnu, isBalanced_of_not_use hs]
    show run ⟨'/' :: '/' :: (c ++ "\n".toList ++ s), 0, 0, false⟩ = run (initState s)
    have e : c ++ "\n".toList ++ s = c ++ '\n' :: s := by simp
    rw [run_comment, e, dropWhile_ne_append hc]
    rfl

/-- C4, at the texts the unit test asserts: `// {` is complete, `// \n {` is
not. -/
theorem isBalanced_line_comment_witness :
    isBalanced "// \x7b".toList = some true ∧
    isBalanced "// \n \x7b".toList = some false :=
  ⟨(isBalanced_line_comment " \x7b".toList (by decide)).1,
   ((isBalanced_line_comment " ".toList (by decide)).2 " \x7b".toList (by decide)).trans
     (by decide)⟩

/-- C5. The content of a terminated string literal is inert: after a prefix of
letters, digits, whitespace, braces, parentheses and operator symbols other
than `/`, a double-quoted literal whose body has no double quote may be
replaced by the empty literal without changing the result, whatever follows;
likewise for a single-quoted literal whose body has no single quote. -/
theorem isBalanced_string_inert (pre body s : List Char)
    (hpre : ∀ c ∈ pre, literalPrefixChar c = true) :
    (dquote ∉ body →
      isBalanced (pre ++ dquote :: (body ++ dquote :: s))
        = isBalanced (pre ++ dquote :: dquote :: s)) ∧
    (squote ∉ body →
      isBalanced (pre ++ squote :: (body ++ squote :: s))
        = isBalanced (pre ++ squote :: squote :: s)) :=
  ⟨fun hb => isBalanced_literal_congr (by decide) (by decide) (by decide)
      (fun body s h b p d => run_dquote_closed h s b p d) pre body s hpre hb,
   fun hb => isBalanced_literal_congr (by decide) (by decide) (by decide)
      (fun body s h b p d => run_squote_closed h s b p d) pre body s hpre hb⟩

/-- C5, at the texts the unit test asserts: `x = "{";` is complete, and
`"//" {` is not. -/
theorem isBalanced_string_inert_witness :
    isBalanced "x = \"\x7b\";".toList = some true ∧
    isBalanced "\"//\" \x7b".toList = some false :=
  ⟨((isBalanced_string_inert "x = ".toList "\x7b".toList ";".toList (by decide)).1
      (by decide)).trans (by decide),
   ((isBalanced_string_inert [] "//".toList " \x7b".toList (by decide)).1
      (by decide)).trans (by decide)⟩

/-- C6, refuted as stated. A body whose only double quote is escaped, `\"{`,
leaves `x = "\"{";` incomplete: the literal ends at the escaped quote and the
brace after it is counted. -/
theorem escaped_quote_ends_literal :
    ¬ ∀ body : List Char, onlyEscapedQuotes body = true →
      isBalanced ("x = \"".toList ++ body ++ "\";".toList) = some true := by
  intro h
  have h1 := h "\\\"\x7b".toList (by decide)
  exact absurd h1 (by decide)

/-- C6, amended. A string literal ends at the next double quote, escaped or
not: for every body without a double quote, `x = "` body `";` is complete,
whatever braces, parentheses or operators the body contains. -/
theorem isBalanced_literal_body (body : List Char) (hb : dquote ∉ body) :
    isBalanced ("x = \"".toList ++ body ++ "\";".toList) = some true := by
  have e : "x = \"".toList ++ body ++ "\";".toList
      = "x = ".toList ++ dquote :: (body ++ dquote :: [';']) := by
    simp [String.toList, dquote]
  have hnu : ¬ isUseDirective ("x = ".toList ++ dquote :: (body ++ dquote :: [';'])) :=
    not_isUseDirective_cons (c := 'x') (by decide) _
  rw [e, isBalanced_of_not_use hnu, initState, run_plain_append _ (by decide),
    run_dquote_closed hb]
  decide

/-- C6 amended, at a body of braces, parentheses, operators and a comment
marker. -/
theorem isBalanced_literal_body_witness :
    isBalanced "x = \"\x7b(+//\x7d\x7d'\";".toList = some true :=
  isBalanced_literal_body "\x7b(+//\x7d\x7d'".toList (by decide)

/-- C7. An escaped slash does not open a comment: for every word `w` of
letters and digits, `{x:/` w `\//}` is complete; a real `//` after the escaped
pair still opens a comment, so `{ \/// }` is not. -/
theorem isBalanced_escaped_slash (w : List Char) (hw : ∀ c ∈ w, c.isAlphanum = true) :
    isBalanced ("\x7bx:/".toList ++ w ++ "\\//\x7d".toList) = some true ∧
    isBalanced "\x7b \\/// \x7d".toList = some false := by
  refine ⟨?_, by decide⟩
  have e : "\x7bx:/".toList ++ w ++ "\\//\x7d".toList
      = lbrace :: 'x' :: ':' :: '/' :: (w ++ backslash :: '/' :: '/' :: rbrace :: []) := by
    simp [String.toList, lbrace, rbrace, backslash]
  have hnu : ¬ isUseDirective
      (lbrace :: 'x' :: ':' :: '/' :: (w ++ backslash :: '/' :: '/' :: rbrace :: [])) :=
    not_isUseDirective_cons (by decide) _
  have hhead : (w ++ backslash :: '/' :: '/' :: rbrace :: []).head? ≠ some '/' := by
    cases w with
    | nil => decide
    | cons a w' =>
      intro h
      have ha : a = '/' := by simpa using h
      exact absurd (hw a (List.mem_cons_self _ _)) (by rw [ha]; decide)
  rw [e, isBalanced_of_not_use hnu, initState, run_lbrace, run_plain (by decide),
    run_plain (by decide), run_slash hhead,
    run_plain_append w (fun c hc => not_mem_switchChars_of_isAlphanum (hw c hc)),
    run_backslash_slash, run_slash (by decide), run_rbrace_pos _ (by decide), run_nil]
  decide

/-- C7, at the text the unit test asserts. -/
theorem isBalanced_escaped_slash_witness :
    isBalanced "\x7bx:/x\\//\x7d".toList = some true :=
  (isBalanced_escaped_slash "x".toList (by decide)).1

/-- C8. A doubled `+` or `-` is skipped as a unit and never changes the
outcome: for `p` and `s` of letters, digits, whitespace and operator symbols
other than `/`, `+`, `-`, with `p ++ s` not a use directive, inserting `++` or
`--` between them leaves the result of `isBalanced` unchanged. -/
theorem isBalanced_doubled_op (p s : List Char) (hp : ∀ c ∈ p, operandOpChar c = true)
    (_hs : ∀ c ∈ s, operandOpChar c = true) (hu : ¬ isUseDirective (p ++ s)) :
    isBalanced (p ++ "++".toList ++ s) = isBalanced (p ++ s) ∧
    isBalanced (p ++ "--".toList ++ s) = isBalanced (p ++ s) := by
  have hpre : ¬ "use ".toList <+: p :=
    fun h => hu (Or.inr (h.trans (List.prefix_append _ _)))
  have hps : ∀ c ∈ p, c ∉ switchChars :=
    fun c hc => not_mem_switchChars_of_operandOpChar (hp c hc)
  have e1 : p ++ "++".toList ++ s = p ++ '+' :: '+' :: s := by simp
  have e2 : p ++ "--".toList ++ s = p ++ '-' :: '-' :: s := by simp
  have h1 : ¬ isUseDirective (p ++ '+' :: '+' :: s) :=
    fun h => hpre ((isUseDirective_append_cons (by decide) _ _).mp h)
  have h2 : ¬ isUseDirective (p ++ '-' :: '-' :: s) :=
    fun h => hpre ((isUseDirective_append_cons (by decide) _ _).mp h)
  rw [e1, e2, isBalanced_of_not_use h1, isBalanced_of_not_use h2, isBalanced_of_not_use hu]
  simp only [initState]
  rw [run_plain_append p hps, run_plain_append p hps, run_plain_append p hps, run_plus_plus,
    run_minus_minus]
  exact ⟨rfl, rfl⟩

/-- C8, at the texts the unit test asserts: ` x ++` and `-- x` are complete. -/
theorem isBalanced_doubled_op_witness :
    isBalanced " x ++".toList = some true ∧ isBalanced "-- x".toList = some true :=
  ⟨((isBalanced_doubled_op " x ".toList [] (by decide) (by decide) (by decide)).1).trans
      (by decide),
   ((isBalanced_doubled_op [] " x".toList (by decide) (by decide) (by decide)).2).trans
      (by decide)⟩

/-- C9, refuted as stated. The text ` use {`, whose trimmed form is the
directive `use {`, is not reported complete: the check is made on the text as
given, and a leading space defeats it. -/
theorem use_directive_not_trimmed :
    trimSpace " use \x7b".toList = "use ".toList ++ "\x7b".toList ∧
    isBalanced " use \x7b".toList = some false := by
  decide

/-- C9, amended. The use-directive check is applied to the text as given:
every text that starts with `use` and a space is reported complete, whatever
follows. -/
theorem isBalanced_use (arg : List Char) :
    isBalanced ("use ".toList ++ arg) = some true :=
  isBalanced_of_use (Or.inr (List.prefix_append _ _))

/-- C10. An unmatched closer makes the scanner report complete at once: after
letters, digits, whitespace and opening parentheses a closing brace ends the
scan with true, whatever follows, and symmetrically for a closing parenthesis
after letters, digits, whitespace and opening braces; and in every state the
loop reaches, both depth counters are non-negative. -/
theorem unmatched_closer_complete (pre t : List Char) :
    ((∀ c ∈ pre, openParenTextChar c = true) →
      isBalanced (pre ++ "\x7d".toList ++ t) = some true) ∧
    ((∀ c ∈ pre, openBraceTextChar c = true) →
      isBalanced (pre ++ ")".toList ++ t) = some true) ∧
    (∀ (code : List Char) (n : Nat) (s : ScanState),
      stateAfter n (initState code) = some s → 0 ≤ s.brackets ∧ 0 ≤ s.parens) := by
  refine ⟨fun h => ?_, fun h => ?_, fun code n s hs => ?_⟩
  · have e : pre ++ "\x7d".toList ++ t = pre ++ rbrace :: t := by simp [rbrace]
    rw [e, isBalanced_eq]
    split
    · rfl
    · obtain ⟨p', d', hr⟩ := run_openParenText pre h (rbrace :: t) 0 0 false
      rw [initState, hr]
      exact run_rbrace_ret t (le_refl 0) p' d'
  · have e : pre ++ ")".toList ++ t = pre ++ rparen :: t := by simp [rparen]
    rw [e, isBalanced_eq]
    split
    · rfl
    · obtain ⟨b', d', hr⟩ := run_openBraceText pre h (rparen :: t) 0 0 false
      rw [initState, hr]
      exact run_rparen_ret t b' (le_refl 0) d'
  · exact stateAfter_nonneg n (initState code) s hs (le_refl 0) (le_refl 0)

/-- C10, at a closing brace after an open parenthesis and before an unclosed
brace and an unterminated string, at its mirror image, and at the state
reached after three iterations on `x((;`. -/
theorem unmatched_closer_complete_witness :
    isBalanced "f(x \x7d \x7b \"abc".toList = some true ∧
    isBalanced "f\x7bx ) ( 'abc".toList = some true ∧
    0 ≤ (ScanState.mk [';'] 0 2 false).parens :=
  ⟨(unmatched_closer_complete "f(x ".toList " \x7b \"abc".toList).1 (by decide),
   (unmatched_closer_complete "f\x7bx ".toList " ( 'abc".toList).2.1 (by decide),
   ((unmatched_closer_complete [] []).2.2 "x((;".toList 3 ⟨[';'], 0, 2, false⟩
      (by decide)).2⟩

/-- C2, refuted as stated. The text `x = ` has no brace, parenthesis, string
literal or comment, so its brackets are balanced and nothing is left open, yet
it is not reported complete: the `=` is a dangling operator. -/
theorem balanced_text_incomplete :
    ¬ ∀ code t : List Char, significant .code code = some t → balancedText t →
      isBalanced code = some true := by
  intro h
  have h1 := h "x = ".toList "x = ".toList (by decide) (by decide)
  exact absurd h1 (by decide)

/-- C2, amended. For every text whose braces and parentheses outside line
comments and string literals are balanced, in which no string literal is left
unterminated, and whose last non-whitespace character outside comments and
literal bodies is not an operator symbol, `isBalanced` returns true. -/
theorem isBalanced_of_balanced_text (code t : List Char)
    (hs : significant .code code = some t) (hb : balancedText t)
    (hl : ∀ c, lastNonSpace t = some c → c ∉ OpSymbols) :
    isBalanced code = some true := by
  rw [isBalanced_eq]
  split
  · rfl
  · refine run_of_significant code.length code (le_refl _) t 0 0 false hs
      (Closes_of_balancedText hb) ?_
    rw [dangleAfter_eq]
    cases hx : lastNonSpace t with
    | none => rfl
    | some x =>
      cases ho : isOpSymbol x
      · exact ho
      · exact absurd ((isOpSymbol_iff x).mp ho) (hl x hx)

/-- C2 amended, at a text with a brace inside a string literal, a parenthesis
inside a comment and an escaped slash. -/
theorem isBalanced_of_balanced_text_witness :
    isBalanced "f(\x7b a: \")\" \x7d) // (\n + \\/ 1;".toList = some true :=
  isBalanced_of_balanced_text "f(\x7b a: \")\" \x7d) // (\n + \\/ 1;".toList
    "f(\x7b a: \"\" \x7d)  + \\/ 1;".toList (by decide) (by decide)
    (fun c h => by
      rw [show lastNonSpace "f(\x7b a: \"\" \x7d)  + \\/ 1;".toList = some ';' by decide] at h
      cases h; decide)

/-- C13. Starting from an empty log with no previous submission, a call of
`shellHistoryAdd` appends its line to the log exactly when the line is not
empty, differs from the line of the last non-empty submission before it and
does not contain `.auth`, and otherwise leaves the log as it is; no recorded
line contains `.auth`; a statement submitted twice in a row is recorded once,
and a statement submitted again after a different one is recorded again. -/
theorem shellHistoryAdd_records (before : List (List Char)) (line : List Char) :
    ((shellHistoryAdd (submitAll before) line).log = (submitAll before).log ++ [line] ↔
      (line ≠ [] ∧ prevNonEmpty before ≠ some line ∧ ¬ authMarker <:+: line)) ∧
    (¬ (line ≠ [] ∧ prevNonEmpty before ≠ some line ∧ ¬ authMarker <:+: line) →
      (shellHistoryAdd (submitAll before) line).log = (submitAll before).log) ∧
    (∀ e ∈ (submitAll before).log, ¬ authMarker <:+: e) ∧
    (line ≠ [] → ¬ authMarker <:+: line → (submitAll [line, line]).log = [line]) ∧
    (∀ other : List Char, line ≠ [] → ¬ authMarker <:+: line → other ≠ [] →
      other ≠ line → ¬ authMarker <:+: other →
      (submitAll [line, other, line]).log = [line, other, line]) := by
  have key : (line ≠ [] ∧ (submitAll before).lastLine ≠ line ∧ ¬ authMarker <:+: line) ↔
      (line ≠ [] ∧ prevNonEmpty before ≠ some line ∧ ¬ authMarker <:+: line) := by
    constructor
    · rintro ⟨h1, h2, h3⟩; exact ⟨h1, (lastLine_ne_iff before h1).mp h2, h3⟩
    · rintro ⟨h1, h2, h3⟩; exact ⟨h1, (lastLine_ne_iff before h1).mpr h2, h3⟩
  refine ⟨?_, ?_, log_submitAll_no_auth before, ?_, ?_⟩
  · rw [log_shellHistoryAdd, ← key]
    split
    · rename_i h; simp [h]
    · rename_i h
      constructor
      · intro e
        have := congrArg List.length e
        simp at this
      · intro h'; exact absurd h' h
  · intro hn
    rw [log_shellHistoryAdd, if_neg (fun h => hn (key.mp h))]
  · intro h1 h3
    simp [submitAll, emptyHistory, shellHistoryAdd, h1, h3, Ne.symm h1]
  · intro other h1 h3 o1 o2 o3
    simp [submitAll, emptyHistory, shellHistoryAdd, h1, h3, Ne.symm h1, o1, o2, o3,
      Ne.symm o2]

/-- C13, at `x = 1` submitted twice, at `x = 1`, `y`, `x = 1`, and at a
statement that contains `.auth`. -/
theorem shellHistoryAdd_records_witness :
    (submitAll ["x = 1".toList, "x = 1".toList]).log = ["x = 1".toList] ∧
    (submitAll ["x = 1".toList, "y".toList, "x = 1".toList]).log
      = ["x = 1".toList, "y".toList, "x = 1".toList] ∧
    (shellHistoryAdd (submitAll ["x = 1".toList]) "db.auth(1)".toList).log
      = (submitAll ["x = 1".toList]).log :=
  ⟨(shellHistoryAdd_records [] "x = 1".toList).2.2.2.1 (by decide) (by decide),
   (shellHistoryAdd_records [] "x = 1".toList).2.2.2.2 "y".toList (by decide) (by decide)
     (by decide) (by decide) (by decide),
   (shellHistoryAdd_records ["x = 1".toList] "db.auth(1)".toList).2.1 (by decide)⟩

/-- C14. Invoked while the at-prompt flag is true, `killOps` has no effect on
the outside world, whatever the registry and the no-kill and auto-kill options:
no connection, no list-operations or kill request, no question to the user;
and so it is with an empty registry. -/
theorem killOps_idle (env : KillEnv) (cfg : KillConfig) (atPrompt : Bool) :
    (atPrompt = true → killOps env cfg atPrompt = ⟨[], cfg.onceDone⟩) ∧
    (cfg.allMyUris = [] → killOps env cfg atPrompt = ⟨[], cfg.onceDone⟩) := by
  constructor
  · intro h
    subst h
    unfold killOps
    split
    · rfl
    · rfl
  · intro h
    unfold killOps
    simp [h]

/-- C14, at a registry of one endpoint with a matching operation in progress
and the auto-kill option set: at the prompt nothing is done, whereas away from
the prompt the operation is killed. -/
theorem killOps_idle_witness :
    killOps ⟨fun _ => true, fun _ => true, fun _ => [⟨"c".toList, 7⟩], 'y'⟩
      ⟨false, [("h".toList, ["c".toList])], true, false⟩ true = ⟨[], false⟩ ∧
    killOps ⟨fun _ => true, fun _ => true, fun _ => [⟨"c".toList, 7⟩], 'y'⟩
      ⟨false, [("h".toList, ["c".toList])], true, false⟩ false
      = ⟨[.sleep, .connect "h".toList, .listOps "h".toList, .kill "h".toList 7], true⟩ :=
  ⟨(killOps_idle ⟨fun _ => true, fun _ => true, fun _ => [⟨"c".toList, 7⟩], 'y'⟩
      ⟨false, [("h".toList, ["c".toList])], true, false⟩ true).1 rfl,
   by decide⟩

/-- C15, refuted as stated. With the multi-line flag and the at-prompt flag
both false, `quitNicely(SIGINT)` is no no-op: already with an empty registry it
sets `dbexitCalled`, calls `killOps`, saves the history and exits with
status 0. -/
theorem quitNicely_sigint_not_noop :
    ¬ ∀ (env : KillEnv) (cfg : KillConfig) (f : Flags),
      f.inMultiLine = false → f.atPrompt = false →
      (quitNicely env cfg f .SIGINT).flags = f ∧
      (quitNicely env cfg f .SIGINT).killed = none ∧
      (quitNicely env cfg f .SIGINT).historySaved = false ∧
      (quitNicely env cfg f .SIGINT).exitStatus = none := by
  intro h
  have h1 := h ⟨fun _ => true, fun _ => true, fun _ => [], 'n'⟩ ⟨false, [], false, false⟩
    ⟨false, false, false, false⟩ rfl rfl
  exact absurd h1.2.2.2 (by decide)

/-- C15, amended. An interrupt signal delivered while the session is neither
at the prompt nor in multi-line continuation ends the session: with the
multi-line flag and the at-prompt flag false, `quitNicely(SIGINT)` sets
`dbexitCalled` and leaves the other flags unchanged, runs the kill coordinator
away from the prompt, saves the history and exits with status 0. -/
theorem quitNicely_sigint_quits (env : KillEnv) (cfg : KillConfig) (f : Flags)
    (hm : f.inMultiLine = false) (hp : f.atPrompt = false) :
    quitNicely env cfg f .SIGINT
      = ⟨{ f with dbexitCalled := true }, false, some (killOps env cfg false), true, some 0⟩ := by
  unfold quitNicely
  simp [hm, hp]

/-- C15 amended, at a session with one endpoint and a matching operation. -/
theorem quitNicely_sigint_quits_witness :
    quitNicely ⟨fun _ => true, fun _ => true, fun _ => [⟨"c".toList, 7⟩], 'y'⟩
      ⟨false, [("h".toList, ["c".toList])], true, false⟩ ⟨false, false, false, false⟩ .SIGINT
      = ⟨⟨false, false, false, true⟩, false,
          some ⟨[.sleep, .connect "h".toList, .listOps "h".toList, .kill "h".toList 7], true⟩,
          true, some 0⟩ :=
  (quitNicely_sigint_quits ⟨fun _ => true, fun _ => true, fun _ => [⟨"c".toList, 7⟩], 'y'⟩
      ⟨false, [("h".toList, ["c".toList])], true, false⟩ ⟨false, false, false, false⟩
      rfl rfl).trans (by decide)

/-- C16. An unterminated string literal never causes continuation at depth
zero and cancels a dangling operator: after a prefix of letters, digits,
whitespace and operator symbols other than `/`, a double quote followed by
text without a double quote makes the text complete, and so does a single
quote followed by text without a single quote. -/
theorem isBalanced_unterminated_literal (pre body : List Char)
    (hpre : ∀ c ∈ pre, opTextChar c = true) :
    (dquote ∉ body → isBalanced (pre ++ dquote :: body) = some true) ∧
    (squote ∉ body → isBalanced (pre ++ squote :: body) = some true) :=
  ⟨fun hb => isBalanced_open_literal (by decide) (by decide)
      (fun body h b p d => run_dquote_open h b p d) pre body hpre hb,
   fun hb => isBalanced_open_literal (by decide) (by decide)
      (fun body h b p d => run_squote_open h b p d) pre body hpre hb⟩

/-- C16, at `x = "abc`, which is complete although `x = ` alone is not, and at
`x + 'a b`. -/
theorem isBalanced_unterminated_literal_witness :
    isBalanced "x = \"abc".toList = some true ∧
    isBalanced "x = ".toList = some false ∧
    isBalanced "x + 'a b".toList = some true :=
  ⟨(isBalanced_unterminated_literal "x = ".toList "abc".toList (by decide)).1 (by decide),
   by decide,
   (isBalanced_unterminated_literal "x + ".toList "a b".toList (by decide)).2 (by decide)⟩

/-- C11. Two consecutive blank lines abandon a continuation: on a first line
without a newline that is not balanced, entered with the interrupted flag
clear, if the next two reads each return an empty line and no signal arrives,
`finishCode` returns `;` with exactly those two reads consumed. -/
theorem finishCode_two_blank_lines (env : KillEnv) (cfg : KillConfig) (f : Flags)
    (first : List Char) (rest : List ReadEvent) (hn : '\n' ∉ first)
    (hb : isBalanced first = some false) (hf : f.gotInterrupted = false) :
    finishCode env cfg (⟨some [], false⟩ :: ⟨some [], false⟩ :: rest) f first
      = .returned ";".toList ⟨false, true, false, f.dbexitCalled⟩ rest := by
  have hc : first.count '\n' = 0 := List.count_eq_zero.mpr hn
  have hb1 : isBalanced (first ++ ['\n'] ++ stripPrompt []) = some false := by
    have : first ++ ['\n'] ++ stripPrompt [] = first ++ ['\n'] := by simp [stripPrompt]
    rw [this]; exact isBalanced_append_newline hb
  have hb2 : isBalanced (first ++ ['\n'] ++ stripPrompt [] ++ ['\n'] ++ stripPrompt [])
      = some false := by
    have : first ++ ['\n'] ++ stripPrompt [] ++ ['\n'] ++ stripPrompt []
        = (first ++ ['\n']) ++ ['\n'] := by simp [stripPrompt]
    rw [this]; exact isBalanced_append_newline (isBalanced_append_newline hb)
  have hi0 : ¬ "\n\n\n".toList <:+: first ++ ['\n'] :=
    not_infix_newlines (by simp [List.count_append, hc])
  have hi1 : ¬ "\n\n\n".toList <:+: first ++ ['\n'] ++ stripPrompt [] ++ ['\n'] :=
    not_infix_newlines (by simp [List.count_append, hc, stripPrompt])
  have hi2 : "\n\n\n".toList
      <:+: first ++ ['\n'] ++ stripPrompt [] ++ ['\n'] ++ stripPrompt [] ++ ['\n'] :=
    ⟨first, [], by simp [stripPrompt]⟩
  rw [finishCode_cons, finishIter_line env cfg f first [] _ _ _ hb hi0 hf]
  show finishCode env cfg (⟨some [], false⟩ :: rest) ⟨false, true, false, f.dbexitCalled⟩
      (first ++ ['\n'] ++ stripPrompt []) = _
  rw [finishCode_cons, finishIter_line env cfg _ _ [] _ _ _ hb1 hi1 rfl]
  show finishCode env cfg rest ⟨false, true, false, f.dbexitCalled⟩
      (first ++ ['\n'] ++ stripPrompt [] ++ ['\n'] ++ stripPrompt []) = _
  cases rest with
  | nil => rw [finishCode_nil, finishIter_cancel env cfg _ _ _ _ _ _ hb2 hi2]
  | cons ev rest' => rw [finishCode_cons, finishIter_cancel env cfg _ _ _ _ _ _ hb2 hi2]

/-- C11, at the first line `function(){` followed by two blank lines and a
third line that is left unread. -/
theorem finishCode_two_blank_lines_witness :
    finishCode ⟨fun _ => true, fun _ => true, fun _ => [], 'n'⟩ ⟨false, [], false, false⟩
      [⟨some [], false⟩, ⟨some [], false⟩, ⟨some "\x7d".toList, false⟩]
      ⟨false, false, false, false⟩ "function()\x7b".toList
      = .returned ";".toList ⟨false, true, false, false⟩ [⟨some "\x7d".toList, false⟩] :=
  finishCode_two_blank_lines ⟨fun _ => true, fun _ => true, fun _ => [], 'n'⟩
    ⟨false, [], false, false⟩ ⟨false, false, false, false⟩ "function()\x7b".toList
    [⟨some "\x7d".toList, false⟩] (by decide) (by decide) rfl

end DbShell
